import Mathlib

/-!
# Verification of the escape-depth-aware JSON normalizer

Shallow embedding, in Lean 4, of the core logic of the `json-visualizer`
repository: the normalizer `smartParseJsonInput`, the classifier
`analyzeJsonInput`, the stand-alone escape-depth probe `getEscapeDepth`
(from `app.js`), and the single-level unescaper `executeUnescape`.

Modelling choices:
* JavaScript strings are modelled by Lean `String` / `List Char`.
* `JSON.parse` is modelled by `parseJson`, a recursive-descent parser for
  the JSON grammar as accepted by `JSON.parse`, with one simplification:
  JSON numbers are modelled as integers (no fraction/exponent parts), so
  `Json.num` carries an `Int`.  All claims under study concern the
  string-escaping layers, not the number grammar, and both sides of every
  comparison use the same parser.
* `JSON.stringify` is modelled by `encodeJson`, including the exact string
  escaping rules of `QuoteJSONString` (short escapes for `\b \t \n \f \r`,
  `\u00xx` for other control characters).
* JavaScript exceptions are modelled with `Except` / `Option`; a parse
  error is identified by the text whose parse failed.
* `null`/`undefined` arguments are modelled by `Option String` where the
  code distinguishes them (`executeUnescape`); elsewhere inputs are `String`.
-/

namespace JsonViz

mutual

/-- The JSON data model (`JsonValue` in the spec), as a mutual inductive so
that structural recursion and induction over arrays and objects is direct.
Numbers are modelled as integers (see the header comment). -/
inductive Json where
  | null : Json
  | bool : Bool → Json
  | num : Int → Json
  | str : String → Json
  | arr : JsonArr → Json
  | obj : JsonObj → Json

/-- A JSON array: an ordered sequence of JSON values. -/
inductive JsonArr where
  | nil : JsonArr
  | cons : Json → JsonArr → JsonArr

/-- A JSON object: an ordered list of key/value members. -/
inductive JsonObj where
  | nil : JsonObj
  | cons : String → Json → JsonObj → JsonObj

end

end JsonViz

namespace JsonViz

mutual

def Json.decEq : (a b : Json) → Decidable (a = b)
  | .null, .null => isTrue rfl
  | .bool x, .bool y =>
    match decEq x y with
    | isTrue h => isTrue (by rw [h])
    | isFalse h => isFalse (by intro hc; cases hc; exact h rfl)
  | .num x, .num y =>
    match decEq x y with
    | isTrue h => isTrue (by rw [h])
    | isFalse h => isFalse (by intro hc; cases hc; exact h rfl)
  | .str x, .str y =>
    match decEq x y with
    | isTrue h => isTrue (by rw [h])
    | isFalse h => isFalse (by intro hc; cases hc; exact h rfl)
  | .arr x, .arr y =>
    match JsonArr.decEq x y with
    | isTrue h => isTrue (by rw [h])
    | isFalse h => isFalse (by intro hc; cases hc; exact h rfl)
  | .obj x, .obj y =>
    match JsonObj.decEq x y with
    | isTrue h => isTrue (by rw [h])
    | isFalse h => isFalse (by intro hc; cases hc; exact h rfl)
  | .null, .bool _ | .null, .num _ | .null, .str _ | .null, .arr _ | .null, .obj _
  | .bool _, .null | .bool _, .num _ | .bool _, .str _ | .bool _, .arr _ | .bool _, .obj _
  | .num _, .null | .num _, .bool _ | .num _, .str _ | .num _, .arr _ | .num _, .obj _
  | .str _, .null | .str _, .bool _ | .str _, .num _ | .str _, .arr _ | .str _, .obj _
  | .arr _, .null | .arr _, .bool _ | .arr _, .num _ | .arr _, .str _ | .arr _, .obj _
  | .obj _, .null | .obj _, .bool _ | .obj _, .num _ | .obj _, .str _ | .obj _, .arr _ =>
    isFalse (by intro hc; cases hc)

def JsonArr.decEq : (a b : JsonArr) → Decidable (a = b)
  | .nil, .nil => isTrue rfl
  | .cons x xs, .cons y ys =>
    match Json.decEq x y, JsonArr.decEq xs ys with
    | isTrue h1, isTrue h2 => isTrue (by rw [h1, h2])
    | isFalse h1, _ => isFalse (by intro hc; cases hc; exact h1 rfl)
    | _, isFalse h2 => isFalse (by intro hc; cases hc; exact h2 rfl)
  | .nil, .cons _ _ => isFalse (by intro hc; cases hc)
  | .cons _ _, .nil => isFalse (by intro hc; cases hc)

def JsonObj.decEq : (a b : JsonObj) → Decidable (a = b)
  | .nil, .nil => isTrue rfl
  | .cons k x xs, .cons k' y ys =>
    match decEq k k', Json.decEq x y, JsonObj.decEq xs ys with
    | isTrue h0, isTrue h1, isTrue h2 => isTrue (by rw [h0, h1, h2])
    | isFalse h0, _, _ => isFalse (by intro hc; cases hc; exact h0 rfl)
    | _, isFalse h1, _ => isFalse (by intro hc; cases hc; exact h1 rfl)
    | _, _, isFalse h2 => isFalse (by intro hc; cases hc; exact h2 rfl)
  | .nil, .cons _ _ _ => isFalse (by intro hc; cases hc)
  | .cons _ _ _, .nil => isFalse (by intro hc; cases hc)

end

instance : DecidableEq Json := Json.decEq

instance : DecidableEq JsonArr := JsonArr.decEq

instance : DecidableEq JsonObj := JsonObj.decEq

/-- `typeof v === 'string'` discriminator. -/
def Json.isStr : Json → Bool
  | .str _ => true
  | _ => false

/-! ## Character classes and trimming

`JSON.parse` skips only the four JSON whitespace characters; JavaScript's
`String.prototype.trim` removes the larger ECMAScript WhiteSpace and
LineTerminator sets. -/

/-- Whitespace as skipped by the JSON grammar (`JSON.parse`):
space, tab, line feed, carriage return. -/
def jsonWsChar (c : Char) : Bool :=
  c.toNat = 32 || c.toNat = 9 || c.toNat = 10 || c.toNat = 13

/-- Whitespace as removed by JavaScript `String.prototype.trim`:
ECMAScript WhiteSpace (TAB VT FF SP NBSP ZWNBSP and the Unicode
Space_Separator category) plus LineTerminator (LF CR LS PS). -/
def jsWsChar (c : Char) : Bool :=
  c.toNat = 32 || c.toNat = 9 || c.toNat = 10 || c.toNat = 13 ||
  c.toNat = 11 || c.toNat = 12 || c.toNat = 0xa0 || c.toNat = 0xfeff ||
  c.toNat = 0x1680 || (0x2000 <= c.toNat && c.toNat <= 0x200a) ||
  c.toNat = 0x2028 || c.toNat = 0x2029 || c.toNat = 0x202f ||
  c.toNat = 0x205f || c.toNat = 0x3000

/-- Trim (both ends) over character lists, with an arbitrary whitespace class. -/
def trimWith (p : Char → Bool) (l : List Char) : List Char :=
  ((l.dropWhile p).reverse.dropWhile p).reverse

/-- JavaScript `String.prototype.trim`. -/
def jsTrim (s : String) : String :=
  ⟨trimWith jsWsChar s.data⟩

/-- `.replace(/^﻿/, '')`: remove one leading byte-order mark. -/
def stripBom (l : List Char) : List Char :=
  match l with
  | '﻿' :: rest => rest
  | _ => l

/-! ## The JSON parser (model of `JSON.parse`) -/

/-- Value of a hexadecimal digit character. -/
def hexVal (c : Char) : Option Nat :=
  if '0' ≤ c ∧ c ≤ '9' then some (c.toNat - 48)
  else if 'a' ≤ c ∧ c ≤ 'f' then some (c.toNat - 87)
  else if 'A' ≤ c ∧ c ≤ 'F' then some (c.toNat - 55)
  else none

/-- Parse the body of a JSON string literal (after the opening quote):
process escape sequences, reject raw control characters, stop at the
closing quote.  Returns the decoded characters and the remaining input. -/
def parseStringBody : List Char → Option (List Char × List Char)
  | [] => none
  | c :: cs =>
    if c = '"' then some ([], cs)
    else if c = '\\' then
      match cs with
      | [] => none
      | e :: cs' =>
        if e = '"' then (parseStringBody cs').map (fun p => ('"' :: p.1, p.2))
        else if e = '\\' then (parseStringBody cs').map (fun p => ('\\' :: p.1, p.2))
        else if e = '/' then (parseStringBody cs').map (fun p => ('/' :: p.1, p.2))
        else if e = 'b' then (parseStringBody cs').map (fun p => ('\x08' :: p.1, p.2))
        else if e = 'f' then (parseStringBody cs').map (fun p => ('\x0c' :: p.1, p.2))
        else if e = 'n' then (parseStringBody cs').map (fun p => ('\n' :: p.1, p.2))
        else if e = 'r' then (parseStringBody cs').map (fun p => ('\r' :: p.1, p.2))
        else if e = 't' then (parseStringBody cs').map (fun p => ('\t' :: p.1, p.2))
        else if e = 'u' then
          match cs' with
          | h1 :: h2 :: h3 :: h4 :: cs'' =>
            match hexVal h1, hexVal h2, hexVal h3, hexVal h4 with
            | some a, some b, some c2, some d =>
              (parseStringBody cs'').map
                (fun p => (Char.ofNat (((a * 16 + b) * 16 + c2) * 16 + d) :: p.1, p.2))
            | _, _, _, _ => none
          | _ => none
        else none
    else if c.toNat < 32 then none
    else (parseStringBody cs).map (fun p => (c :: p.1, p.2))

/-- Digit characters to the natural number they denote (most significant first). -/
def natFromDigits (ds : List Char) : Nat :=
  ds.foldl (fun a c => a * 10 + (c.toNat - 48)) 0

/-- Parse an unsigned JSON integer: a maximal digit run, rejecting a
leading zero followed by further digits (JSON grammar). -/
def parsePosNumber (cs : List Char) : Option (Nat × List Char) :=
  let ds := cs.takeWhile (fun c => c.isDigit)
  let rest := cs.dropWhile (fun c => c.isDigit)
  match ds with
  | [] => none
  | d :: ds' => if d = '0' ∧ ds' ≠ [] then none else some (natFromDigits ds, rest)

mutual

/-- Parse one JSON value (model of `JSON.parse`'s grammar, integers only;
see the header).  `fuel` bounds the nesting depth. -/
def parseValue (fuel : Nat) (cs : List Char) : Option (Json × List Char) :=
  match fuel with
  | 0 => none
  | fuel + 1 =>
    match cs.dropWhile jsonWsChar with
    | [] => none
    | c :: rest =>
      if c = 'n' then
        match rest with
        | 'u' :: 'l' :: 'l' :: r => some (.null, r)
        | _ => none
      else if c = 't' then
        match rest with
        | 'r' :: 'u' :: 'e' :: r => some (.bool true, r)
        | _ => none
      else if c = 'f' then
        match rest with
        | 'a' :: 'l' :: 's' :: 'e' :: r => some (.bool false, r)
        | _ => none
      else if c = '"' then
        (parseStringBody rest).map (fun p => (.str ⟨p.1⟩, p.2))
      else if c = '[' then
        match rest.dropWhile jsonWsChar with
        | [] => none
        | c1 :: r1 =>
          if c1 = ']' then some (.arr .nil, r1)
          else (parseElems fuel (c1 :: r1)).map (fun p => (.arr p.1, p.2))
      else if c = '{' then
        match rest.dropWhile jsonWsChar with
        | [] => none
        | c1 :: r1 =>
          if c1 = '}' then some (.obj .nil, r1)
          else (parseMembers fuel (c1 :: r1)).map (fun p => (.obj p.1, p.2))
      else if c = '-' then
        (parsePosNumber rest).map (fun p => (.num (-(p.1 : Int)), p.2))
      else if c.isDigit then
        (parsePosNumber (c :: rest)).map (fun p => (.num (p.1 : Int), p.2))
      else none

/-- Parse the elements of a non-empty JSON array (after `[`). -/
def parseElems (fuel : Nat) (cs : List Char) : Option (JsonArr × List Char) :=
  match fuel with
  | 0 => none
  | fuel + 1 =>
    (parseValue fuel cs).bind (fun pv =>
      match (pv.2.dropWhile jsonWsChar) with
      | ',' :: rest' => (parseElems fuel rest').map (fun p => (.cons pv.1 p.1, p.2))
      | ']' :: rest' => some (.cons pv.1 .nil, rest')
      | _ => none)

/-- Parse the members of a non-empty JSON object (after `{`). -/
def parseMembers (fuel : Nat) (cs : List Char) : Option (JsonObj × List Char) :=
  match fuel with
  | 0 => none
  | fuel + 1 =>
    match cs.dropWhile jsonWsChar with
    | '"' :: rest =>
      (parseStringBody rest).bind (fun pk =>
        match pk.2.dropWhile jsonWsChar with
        | ':' :: rest2 =>
          (parseValue fuel rest2).bind (fun pv =>
            match pv.2.dropWhile jsonWsChar with
            | ',' :: rest4 =>
              (parseMembers fuel rest4).map (fun p => (.cons ⟨pk.1⟩ pv.1 p.1, p.2))
            | '}' :: rest4 => some (.cons ⟨pk.1⟩ pv.1 .nil, rest4)
            | _ => none)
        | _ => none)
    | _ => none

end

/-- Model of `JSON.parse(text)`: parse one value, then require only
whitespace to remain.  `none` models a thrown `SyntaxError`. -/
def parseJson (s : String) : Option Json :=
  match parseValue (s.data.length + 1) s.data with
  | some (v, rest) => if rest.dropWhile jsonWsChar = [] then some v else none
  | none => none

/-! ## The JSON serializer (model of `JSON.stringify`) -/

/-- Decimal digit character. -/
def digitChar (n : Nat) : Char := Char.ofNat (48 + n)

/-- Lowercase hexadecimal digit character (as emitted by `JSON.stringify`
for control-character escapes). -/
def hexDigitChar (n : Nat) : Char :=
  if n < 10 then Char.ofNat (48 + n) else Char.ofNat (87 + n)

/-- Decimal digits of a natural number, most significant first; `fuel`
bounds the number of digits (structural recursion keeps the definition
kernel-reducible). -/
def natDigitsAux (fuel n : Nat) : List Char :=
  match fuel with
  | 0 => []
  | fuel + 1 =>
    if n < 10 then [digitChar n]
    else natDigitsAux fuel (n / 10) ++ [digitChar (n % 10)]

/-- Decimal digits of a natural number, most significant first. -/
def natDigits (n : Nat) : List Char := natDigitsAux (n + 1) n

/-- `JSON.stringify` escaping of one character inside a string literal. -/
def escChar (c : Char) : List Char :=
  if c = '"' then ['\\', '"']
  else if c = '\\' then ['\\', '\\']
  else if c = '\x08' then ['\\', 'b']
  else if c = '\x0c' then ['\\', 'f']
  else if c = '\n' then ['\\', 'n']
  else if c = '\r' then ['\\', 'r']
  else if c = '\t' then ['\\', 't']
  else if c.toNat < 32 then
    ['\\', '\x75', '0', '0', hexDigitChar (c.toNat / 0x10), hexDigitChar (c.toNat % 0x10)]
  else [c]

/-- `JSON.stringify` escaping of a string body. -/
def escapeChars : List Char → List Char
  | [] => []
  | c :: cs => escChar c ++ escapeChars cs

/-- `JSON.stringify` of a string value: quoted, escaped body. -/
def encodeStringL (cs : List Char) : List Char :=
  '"' :: (escapeChars cs ++ ['"'])

mutual

/-- Model of `JSON.stringify(v)` (compact form, no spacing). -/
def encodeJ : Json → List Char
  | .null => ['n', 'u', '\x6c', 'l']
  | .bool true => ['t', '\x72', 'u', 'e']
  | .bool false => ['f', 'a', '\x6c', 's', 'e']
  | .num n => if n < 0 then '-' :: natDigits n.natAbs else natDigits n.natAbs
  | .str s => encodeStringL s.data
  | .arr xs => '[' :: (encodeElems xs ++ [']'])
  | .obj kvs => '{' :: (encodeMembers kvs ++ ['}'])

/-- Comma-separated encodings of array elements. -/
def encodeElems : JsonArr → List Char
  | .nil => []
  | .cons v .nil => encodeJ v
  | .cons v tl => encodeJ v ++ ',' :: encodeElems tl

/-- Comma-separated encodings of object members. -/
def encodeMembers : JsonObj → List Char
  | .nil => []
  | .cons k v .nil => encodeStringL k.data ++ ':' :: encodeJ v
  | .cons k v tl => (encodeStringL k.data ++ ':' :: encodeJ v) ++ ',' :: encodeMembers tl

end

/-- `JSON.stringify` on a JSON document, as a string. -/
def encodeJson (d : Json) : String := ⟨encodeJ d⟩

/-- `JSON.stringify` applied to a string value. -/
def encodeString (s : String) : String := ⟨encodeStringL s.data⟩

/-! ## The normalizer `smartParseJsonInput` (`src/unnamed/part_000`) -/

/-- The `normalize` helper of `smartParseJsonInput`:
`(s ?? '').replace(/^﻿/, '').trim()`. -/
def normalizeL (l : List Char) : List Char := trimWith jsWsChar (stripBom l)

/-- String-level wrapper for `normalizeL`. -/
def normalizeJs (s : String) : String := ⟨normalizeL s.data⟩

/-- Second character of a recognizable backslash escape, from the regex
`/\\["\\\/bfnrtu]/`. -/
def escSeqSecond (c : Char) : Bool :=
  c = '"' || c = '\\' || c = '/' || c = 'b' || c = 'f' ||
  c = 'n' || c = 'r' || c = 't' || c = 'u'

/-- `/\\["\\\/bfnrtu]/.test(s)`: some backslash is followed by an escape
second character. -/
def hasEscapeSeqL : List Char → Bool
  | [] => false
  | [_] => false
  | a :: b :: rest => (a = '\\' && escSeqSecond b) || hasEscapeSeqL (b :: rest)

/-- String-level wrapper for `hasEscapeSeqL`. -/
def hasEscapeSeq (s : String) : Bool := hasEscapeSeqL s.data

/-- `stripOuterNonJsonQuotes`: normalize, then drop one matching pair of
outer single quotes or backticks and re-trim. -/
def stripOuterL (l : List Char) : List Char :=
  let t := normalizeL l
  if t.length < 2 then t
  else
    match t.head?, t.getLast? with
    | some f, some la =>
      if (f = '\'' && la = '\'') || (f = '`' && la = '`') then
        trimWith jsWsChar (t.drop 1).dropLast
      else t
    | _, _ => t

/-- String-level wrapper for `stripOuterL`. -/
def stripOuterNonJsonQuotes (s : String) : String := ⟨stripOuterL s.data⟩

/-- One character of the pre-decode normalization
`.replace(/\r/g, '\\r').replace(/\n/g, '\\n')`. -/
def crlfChar (c : Char) : List Char :=
  if c = '\r' then ['\\', 'r'] else if c = '\n' then ['\\', 'n'] else [c]

/-- Replace every literal CR/LF by its two-character escape. -/
def escapeCRLF : List Char → List Char
  | [] => []
  | c :: cs => crlfChar c ++ escapeCRLF cs

/-- `tryDecodeAsJsonStringLiteral`: escape raw CR/LF, wrap the text in
double quotes, and `JSON.parse` the result. -/
def tryDecodeAsJsonStringLiteral (s : String) : Option Json :=
  parseJson ⟨'"' :: (escapeCRLF s.data ++ ['"'])⟩

/-- The error thrown by `smartParseJsonInput`: the last underlying parse
error (`none` models the fallback `new Error('Invalid JSON')`), plus the
`err.smartParse = { maxDepthTried, escapeDepth }` metadata.  A parse error
is identified by the text whose parse failed. -/
structure SmartParseErr where
  cause : Option String
  maxDepthTried : Nat
  escapeDepth : Nat
deriving DecidableEq, Repr

/-- A successful normalization: `{ value, escapeDepth }`. -/
structure SmartOk where
  value : Json
  escapeDepth : Nat
deriving DecidableEq

/-- The main loop of `smartParseJsonInput` (`for (let i = 0; i < maxDepth; i++)`),
with the remaining iteration budget as `fuel`.  The `seen` set is a list of
previously visited strings.  Mirrors the source line by line; in the decode
step, a successful parse of a `"`-led document is necessarily a string, so
the `some`-but-not-a-string branch is unreachable. -/
def smartLoop (fuel : Nat) (current : String) (depth : Nat) (seen : List String)
    (lastError : Option String) (maxDepth : Nat) : Except SmartParseErr SmartOk :=
  match fuel with
  | 0 => .error ⟨lastError, maxDepth, depth⟩
  | fuel + 1 =>
    if seen.contains current then .error ⟨lastError, maxDepth, depth⟩
    else
      let seen := current :: seen
      match parseJson current with
      | some (.str s) =>
        let inner := normalizeJs s
        if inner != "" && inner != current && (parseJson inner).isSome then
          smartLoop fuel inner (depth + 1) seen lastError maxDepth
        else if inner != "" && inner != current && hasEscapeSeq inner then
          smartLoop fuel inner (depth + 1) seen lastError maxDepth
        else .ok ⟨.str s, depth⟩
      | some v => .ok ⟨v, depth⟩
      | none =>
        let lastError := some current
        let stripped := stripOuterNonJsonQuotes current
        if stripped != current then
          smartLoop fuel stripped depth seen lastError maxDepth
        else
          match tryDecodeAsJsonStringLiteral current with
          | some (.str s') =>
            let next := normalizeJs s'
            if next != "" && next != current then
              smartLoop fuel next (depth + 1) seen lastError maxDepth
            else .error ⟨lastError, maxDepth, depth⟩
          | some _ => .error ⟨lastError, maxDepth, depth⟩
          | none => .error ⟨some ⟨'"' :: (escapeCRLF current.data ++ ['"'])⟩, maxDepth, depth⟩

instance {ε α : Type} [DecidableEq ε] [DecidableEq α] : DecidableEq (Except ε α) := fun a b =>
  match a, b with
  | .ok x, .ok y =>
    if h : x = y then isTrue (by rw [h])
    else isFalse (by intro hc; cases hc; exact h rfl)
  | .error x, .error y =>
    if h : x = y then isTrue (by rw [h])
    else isFalse (by intro hc; cases hc; exact h rfl)
  | .ok _, .error _ => isFalse (by intro hc; cases hc)
  | .error _, .ok _ => isFalse (by intro hc; cases hc)

/-- `smartParseJsonInput(raw, { maxDepth })`: the normalizer. -/
def smartParseJsonInput (raw : String) (maxDepth : Nat := 25) :
    Except SmartParseErr SmartOk :=
  smartLoop maxDepth (stripOuterNonJsonQuotes raw) 0 [] none maxDepth

/-! ## The classifier `analyzeJsonInput` -/

/-- The tri-state classification label. -/
inductive Form where
  | json : Form
  | escaped : Form
  | unknown : Form
deriving DecidableEq, Repr

/-- The classifier's result `{ form, escapeDepth }`. -/
structure Analysis where
  form : Form
  escapeDepth : Nat
deriving DecidableEq, Repr

/-- `analyzeJsonInput(raw, { maxDepth })`: trim, refuse empty input, run the
normalizer, and collapse any failure to `unknown`.  Total by construction
(the classifier never throws). -/
def analyzeJsonInput (raw : String) (maxDepth : Nat := 25) : Analysis :=
  let s := jsTrim raw
  if s = "" then ⟨.unknown, 0⟩
  else
    match smartParseJsonInput s maxDepth with
    | .ok r => ⟨if r.escapeDepth > 0 then .escaped else .json, r.escapeDepth⟩
    | .error _ => ⟨.unknown, 0⟩

/-! ## The escape-depth probe `getEscapeDepth` (`src/app.js`) -/

/-- One character of the sequential replacement
`.replace(/\\/g, '\\\\').replace(/"/g, '\\"')` (escape every backslash,
then every double quote; the combined effect is this per-character map). -/
def bsqChar (c : Char) : List Char :=
  if c = '\\' then ['\\', '\\'] else if c = '"' then ['\\', '"'] else [c]

/-- Escape every backslash and double quote. -/
def escapeBSQ : List Char → List Char
  | [] => []
  | c :: cs => bsqChar c ++ escapeBSQ cs

/-- `tryUnescapeUnquoted` of `getEscapeDepth`: wrap the text in quotes
verbatim and parse; on failure, escape backslashes/quotes first and retry.
A successful parse of a `"`-led document is necessarily a string, so the
non-string success branches are unreachable and fall through like failures. -/
def tryUnescapeUnquoted (text : String) : Option String :=
  match parseJson ⟨'"' :: (text.data ++ ['"'])⟩ with
  | some (.str v) => some v
  | _ =>
    match parseJson ⟨'"' :: (escapeBSQ text.data ++ ['"'])⟩ with
    | some (.str v) => some v
    | _ => none

/-- The bounded loop of `getEscapeDepth` (`while (iterations < maxIterations)`
with `maxIterations = 20`), `fuel` being the remaining iterations. -/
def gedLoop (fuel : Nat) (current : String) (depth : Nat) : Nat :=
  match fuel with
  | 0 => depth
  | fuel + 1 =>
    let parsed : Option Json :=
      match parseJson current with
      | some v => some v
      | none => (tryUnescapeUnquoted current).map .str
    match parsed with
    | some (.str s') =>
      let inner := jsTrim s'
      if inner != current && (parseJson inner).isSome then
        gedLoop fuel inner (depth + 1)
      else depth
    | _ => depth

/-- `getEscapeDepth(raw)` from `src/app.js`: the stand-alone 20-iteration
depth probe. -/
def getEscapeDepth (raw : String) : Nat :=
  let s := jsTrim raw
  if s = "" then 0 else gedLoop 20 s 0

/-! ## The single-level unescaper `executeUnescape` -/

/-- `executeUnescape(raw)`.  `none` models a `null`/`undefined` argument
(falsy, returned unchanged, like the empty string).  The error value is the
text whose `JSON.parse` raised the propagated `SyntaxError`.  In rungs 2
and 3 a successful parse of the `"`-wrapped text is necessarily a string,
so the non-string success branches are unreachable. -/
def executeUnescape (raw : Option String) : Except String (Option String) :=
  match raw with
  | none => .ok none
  | some s =>
    if s = "" then .ok (some s)
    else
      match parseJson s with
      | some (.str t) => .ok (some t)
      | _ =>
        match parseJson ⟨'"' :: (s.data ++ ['"'])⟩ with
        | some (.str t) => .ok (some t)
        | _ =>
          match parseJson ⟨'"' :: (escapeBSQ s.data ++ ['"'])⟩ with
          | some (.str t) => .ok (some t)
          | _ => .error ⟨'"' :: (escapeBSQ s.data ++ ['"'])⟩

/-! ## Auxiliary definitions used only in statements and proofs -/

mutual

/-- Parser fuel needed for a value: the nesting depth of its encoding. -/
def depthJ : Json → Nat
  | .null => 1
  | .bool _ => 1
  | .num _ => 1
  | .str _ => 1
  | .arr xs => 1 + depthA xs
  | .obj kvs => 1 + depthO kvs

/-- Parser fuel needed by `parseElems` on the encoding of the elements. -/
def depthA : JsonArr → Nat
  | .nil => 0
  | .cons v tl => 1 + max (depthJ v) (depthA tl)

/-- Parser fuel needed by `parseMembers` on the encoding of the members. -/
def depthO : JsonObj → Nat
  | .nil => 0
  | .cons _ v tl => 1 + max (depthJ v) (depthO tl)

end

/-- `E_N` of the spec: the document serialized once, then string-serialized
`N` more times. -/
def eTower (d : Json) : Nat → String
  | 0 => encodeJson d
  | n + 1 => encodeString (eTower d n)

/-- `true` when the string contains no control character (U+0000–U+001F). -/
def ctrlFree (s : String) : Bool :=
  s.data.all (fun c => 32 ≤ c.toNat)

/-- How an execution of the `smartParseJsonInput` loop ended. -/
inductive ExitReason where
  | returned : ExitReason
  | cycleDetected : ExitReason
  | noProgress : ExitReason
  | decodeFailed : ExitReason
  | fuelExhausted : ExitReason
deriving DecidableEq, Repr

/-- An instrumented run of the normalizer loop: its result together with
the number of loop iterations entered, the reason the loop stopped, and
the final values of the `depth` and `lastError` locals. -/
structure SmartTrace where
  result : Except SmartParseErr SmartOk
  iters : Nat
  reason : ExitReason
  finalDepth : Nat
  finalLastError : Option String
deriving DecidableEq

/-- Instrumented copy of `smartLoop`; `smartLoopTraced_result` proves that
erasing the instrumentation yields `smartLoop` exactly. -/
def smartLoopTraced (fuel : Nat) (current : String) (depth : Nat) (seen : List String)
    (lastError : Option String) (maxDepth : Nat) : SmartTrace :=
  match fuel with
  | 0 => ⟨.error ⟨lastError, maxDepth, depth⟩, 0, .fuelExhausted, depth, lastError⟩
  | fuel + 1 =>
    if seen.contains current then
      ⟨.error ⟨lastError, maxDepth, depth⟩, 1, .cycleDetected, depth, lastError⟩
    else
      let seen := current :: seen
      match parseJson current with
      | some (.str s) =>
        let inner := normalizeJs s
        if inner != "" && inner != current && (parseJson inner).isSome then
          let t := smartLoopTraced fuel inner (depth + 1) seen lastError maxDepth
          ⟨t.result, t.iters + 1, t.reason, t.finalDepth, t.finalLastError⟩
        else if inner != "" && inner != current && hasEscapeSeq inner then
          let t := smartLoopTraced fuel inner (depth + 1) seen lastError maxDepth
          ⟨t.result, t.iters + 1, t.reason, t.finalDepth, t.finalLastError⟩
        else ⟨.ok ⟨.str s, depth⟩, 1, .returned, depth, lastError⟩
      | some v => ⟨.ok ⟨v, depth⟩, 1, .returned, depth, lastError⟩
      | none =>
        let lastError := some current
        let stripped := stripOuterNonJsonQuotes current
        if stripped != current then
          let t := smartLoopTraced fuel stripped depth seen lastError maxDepth
          ⟨t.result, t.iters + 1, t.reason, t.finalDepth, t.finalLastError⟩
        else
          match tryDecodeAsJsonStringLiteral current with
          | some (.str s') =>
            let next := normalizeJs s'
            if next != "" && next != current then
              let t := smartLoopTraced fuel next (depth + 1) seen lastError maxDepth
              ⟨t.result, t.iters + 1, t.reason, t.finalDepth, t.finalLastError⟩
            else ⟨.error ⟨lastError, maxDepth, depth⟩, 1, .noProgress, depth, lastError⟩
          | some _ => ⟨.error ⟨lastError, maxDepth, depth⟩, 1, .noProgress, depth, lastError⟩
          | none =>
            ⟨.error ⟨some ⟨'"' :: (escapeCRLF current.data ++ ['"'])⟩, maxDepth, depth⟩, 1,
              .decodeFailed, depth, some ⟨'"' :: (escapeCRLF current.data ++ ['"'])⟩⟩

/-- Instrumented `smartParseJsonInput`. -/
def smartParseTraced (raw : String) (maxDepth : Nat := 25) : SmartTrace :=
  smartLoopTraced maxDepth (stripOuterNonJsonQuotes raw) 0 [] none maxDepth

/-! ## Character and list utility lemmas -/

theorem char_eq_iff_toNat (a b : Char) : a = b ↔ a.toNat = b.toNat := by
  constructor
  · intro h; rw [h]
  · intro h; apply Char.ext_iff.mpr; exact UInt32.ext h

theorem char_le_iff_toNat (a b : Char) : a ≤ b ↔ a.toNat ≤ b.toNat := by
  rw [Char.le_def]
  exact ⟨fun h => h, fun h => h⟩

theorem toNat_charOfNat {k : Nat} (h : k < 55296) : (Char.ofNat k).toNat = k := by
  have hv : Nat.isValidChar k := Or.inl h
  simp [Char.ofNat, hv, Char.ofNatAux, Char.toNat]
  rfl

theorem isDigit_iff_toNat (c : Char) : c.isDigit = true ↔ 48 ≤ c.toNat ∧ c.toNat ≤ 57 := by
  simp only [Char.isDigit, Bool.and_eq_true, decide_eq_true_eq]
  exact ⟨fun h => ⟨h.1, h.2⟩, fun h => ⟨h.1, h.2⟩⟩

theorem dropWhile_eq_self_of_head {p : Char → Bool} {l : List Char}
    (h : ∀ c, l.head? = some c → p c = false) : l.dropWhile p = l := by
  cases l with
  | nil => rfl
  | cons c cs => simp [List.dropWhile_cons, h c rfl]

theorem takeWhile_eq_nil_of_head {p : Char → Bool} {l : List Char}
    (h : ∀ c, l.head? = some c → p c = false) : l.takeWhile p = [] := by
  cases l with
  | nil => rfl
  | cons c cs => simp [List.takeWhile_cons, h c rfl]

theorem takeWhile_append_all {p : Char → Bool} {xs : List Char} (ys : List Char)
    (h : ∀ c ∈ xs, p c = true) : (xs ++ ys).takeWhile p = xs ++ ys.takeWhile p := by
  induction xs with
  | nil => simp
  | cons x xs ih =>
    simp only [List.cons_append, List.takeWhile_cons, h x (by simp)]
    simp [ih (fun c hc => h c (by simp [hc]))]

theorem dropWhile_append_all {p : Char → Bool} {xs : List Char} (ys : List Char)
    (h : ∀ c ∈ xs, p c = true) : (xs ++ ys).dropWhile p = ys.dropWhile p := by
  induction xs with
  | nil => simp
  | cons x xs ih =>
    simp only [List.cons_append, List.dropWhile_cons, h x (by simp)]
    exact ih (fun c hc => h c (by simp [hc]))

theorem trimWith_eq_self {p : Char → Bool} {l : List Char}
    (h1 : ∀ c, l.head? = some c → p c = false)
    (h2 : ∀ c, l.getLast? = some c → p c = false) : trimWith p l = l := by
  unfold trimWith
  rw [dropWhile_eq_self_of_head h1]
  rw [dropWhile_eq_self_of_head (by
    intro c hc
    exact h2 c (by rwa [List.head?_reverse] at hc))]
  exact List.reverse_reverse l

theorem trimWith_eq_nil_of_all {p : Char → Bool} {l : List Char}
    (h : ∀ c ∈ l, p c = true) : trimWith p l = [] := by
  unfold trimWith
  have : l.dropWhile p = [] := List.dropWhile_eq_nil_iff.mpr (by
    intro c hc; exact h c hc)
  simp [this]

/-! ## Decimal digits: `natDigits` and `parsePosNumber` -/

theorem natDigitsAux_congr :
    ∀ f1 f2 n : Nat, n < f1 → n < f2 → natDigitsAux f1 n = natDigitsAux f2 n := by
  intro f1
  induction f1 with
  | zero => intro f2 n h1 _; omega
  | succ f1 ih =>
    intro f2 n h1 h2
    cases f2 with
    | zero => omega
    | succ f2 =>
      simp only [natDigitsAux]
      by_cases h10 : n < 10
      · simp [h10]
      · have hdiv : n / 10 < n := Nat.div_lt_self (by omega) (by omega)
        simp only [h10, if_false]
        rw [ih f2 (n / 10) (by omega) (by omega)]

theorem natDigitsAux_succ (fuel n : Nat) :
    natDigitsAux (fuel + 1) n =
      if n < 10 then [digitChar n] else natDigitsAux fuel (n / 10) ++ [digitChar (n % 10)] := rfl

theorem natDigits_eq (n : Nat) :
    natDigits n =
      if n < 10 then [digitChar n] else natDigits (n / 10) ++ [digitChar (n % 10)] := by
  unfold natDigits
  rw [natDigitsAux_succ]
  by_cases h10 : n < 10
  · rw [if_pos h10, if_pos h10]
  · have hdiv : n / 10 < n := Nat.div_lt_self (by omega) (by omega)
    rw [if_neg h10, if_neg h10,
      natDigitsAux_congr n (n / 10 + 1) (n / 10) (by omega) (by omega)]

theorem head?_append_left {α : Type} {l : List α} (l' : List α) (h : l ≠ []) :
    (l ++ l').head? = l.head? := by
  cases l with
  | nil => exact absurd rfl h
  | cons a as => rfl

theorem toNat_digitChar {d : Nat} (h : d < 10) : (digitChar d).toNat = 48 + d := by
  unfold digitChar
  exact toNat_charOfNat (by omega)

theorem isDigit_digitChar {d : Nat} (h : d < 10) : (digitChar d).isDigit = true := by
  rw [isDigit_iff_toNat, toNat_digitChar h]
  omega

theorem natDigits_ne_nil (n : Nat) : natDigits n ≠ [] := by
  rw [natDigits_eq]
  by_cases h10 : n < 10 <;> simp [h10]

theorem natDigits_all_digits (n : Nat) : ∀ c ∈ natDigits n, c.isDigit = true := by
  induction n using Nat.strong_induction_on with
  | _ n ih =>
    rw [natDigits_eq]
    by_cases h10 : n < 10
    · simp only [h10, if_true, List.mem_singleton]
      intro c hc; subst hc; exact isDigit_digitChar h10
    · have hdiv : n / 10 < n := Nat.div_lt_self (by omega) (by omega)
      simp only [h10, if_false, List.mem_append, List.mem_singleton]
      intro c hc
      rcases hc with hc | hc
      · exact ih (n / 10) hdiv c hc
      · subst hc; exact isDigit_digitChar (Nat.mod_lt n (by omega))

theorem natDigits_head_ne_zero (n : Nat) (hn : 0 < n) :
    ∀ c, (natDigits n).head? = some c → c.toNat ≠ 48 := by
  induction n using Nat.strong_induction_on with
  | _ n ih =>
    rw [natDigits_eq]
    by_cases h10 : n < 10
    · simp only [h10, if_true, List.head?_cons]
      intro c hc
      cases hc
      rw [toNat_digitChar h10]
      omega
    · have hdiv : n / 10 < n := Nat.div_lt_self (by omega) (by omega)
      have hpos : 0 < n / 10 := Nat.div_pos (by omega) (by omega)
      simp only [h10, if_false]
      intro c hc
      rw [head?_append_left _ (natDigits_ne_nil (n / 10))] at hc
      exact ih (n / 10) hdiv hpos c hc

theorem foldl_digits_natDigits (n : Nat) :
    ∀ a : Nat,
      (natDigits n).foldl (fun a c => a * 10 + (c.toNat - 48)) a =
        a * 10 ^ (natDigits n).length + n := by
  induction n using Nat.strong_induction_on with
  | _ n ih =>
    intro a
    rw [natDigits_eq]
    by_cases h10 : n < 10
    · simp [h10, List.foldl_cons, toNat_digitChar h10]
    · have hdiv : n / 10 < n := Nat.div_lt_self (by omega) (by omega)
      simp only [h10, if_false, List.foldl_append, List.foldl_cons, List.foldl_nil,
        List.length_append, List.length_cons, List.length_nil]
      rw [ih (n / 10) hdiv a, toNat_digitChar (Nat.mod_lt n (by omega))]
      have hexp : a * 10 ^ ((natDigits (n / 10)).length + (0 + 1)) =
          a * 10 ^ (natDigits (n / 10)).length * 10 := by
        rw [pow_succ, ← mul_assoc]
      rw [hexp]
      generalize a * 10 ^ (natDigits (n / 10)).length = A
      omega

theorem natFromDigits_natDigits (n : Nat) : natFromDigits (natDigits n) = n := by
  unfold natFromDigits
  rw [foldl_digits_natDigits n 0]
  simp

theorem parsePosNumber_encode (n : Nat) (rest : List Char)
    (hrest : ∀ c, rest.head? = some c → c.isDigit = false) :
    parsePosNumber (natDigits n ++ rest) = some (n, rest) := by
  unfold parsePosNumber
  rw [takeWhile_append_all rest (natDigits_all_digits n),
    takeWhile_eq_nil_of_head hrest, List.append_nil,
    dropWhile_append_all rest (natDigits_all_digits n),
    dropWhile_eq_self_of_head hrest]
  rcases hnd : natDigits n with _ | ⟨d, ds'⟩
  · exact absurd hnd (natDigits_ne_nil n)
  · simp only
    rw [if_neg, ← hnd, natFromDigits_natDigits]
    by_cases h10 : n < 10
    · have hsing : d :: ds' = [digitChar n] := by
        rw [← hnd, natDigits_eq]
        simp [h10]
      intro hcon
      injection hsing with _ h2
      exact hcon.2 h2
    · intro hcon
      have hd : (natDigits n).head? = some d := by rw [hnd]; rfl
      have := natDigits_head_ne_zero n (by omega) d hd
      apply this
      rw [hcon.1]
      rfl

end JsonViz
namespace JsonViz

theorem hexVal_hexDigitChar {d : Nat} (h : d < 16) : hexVal (hexDigitChar d) = some d := by
  unfold hexDigitChar hexVal
  by_cases hd : d < 10
  · rw [if_pos hd]
    have ht : (Char.ofNat (48 + d)).toNat = 48 + d := toNat_charOfNat (by omega)
    have n0 : ('0' : Char).toNat = 48 := rfl
    have n9 : ('9' : Char).toNat = 57 := rfl
    rw [if_pos ⟨(char_le_iff_toNat _ _).mpr (by omega), (char_le_iff_toNat _ _).mpr (by omega)⟩]
    rw [ht]
    simp [Nat.add_sub_cancel_left]
  · rw [if_neg hd]
    have ht : (Char.ofNat (87 + d)).toNat = 87 + d := toNat_charOfNat (by omega)
    have m0 : ('0' : Char).toNat = 48 := rfl
    have m9 : ('9' : Char).toNat = 57 := rfl
    have ma : ('a' : Char).toNat = 97 := rfl
    have mf : ('f' : Char).toNat = 102 := rfl
    rw [if_neg (by
      intro hcon
      have := (char_le_iff_toNat _ _).mp hcon.2
      omega)]
    rw [if_pos ⟨(char_le_iff_toNat _ _).mpr (by omega), (char_le_iff_toNat _ _).mpr (by omega)⟩]
    rw [ht]
    simp [Nat.add_sub_cancel_left]

theorem parseStringBody_escapeChars (cs : List Char) :
    ∀ rest, parseStringBody (escapeChars cs ++ '"' :: rest) = some (cs, rest) := by
  induction cs with
  | nil =>
    intro rest
    simp only [escapeChars, List.nil_append]
    rw [parseStringBody.eq_def]
    simp
  | cons c cs ih =>
    intro rest
    by_cases h1 : c = '"'
    · subst h1
      simp only [escapeChars]
      rw [show escChar '"' = ['\\', '"'] from rfl]
      simp only [List.cons_append, List.nil_append]
      rw [parseStringBody.eq_def]
      simp [ih]
    · by_cases h2 : c = '\\'
      · subst h2
        simp only [escapeChars]
        rw [show escChar '\\' = ['\\', '\\'] from rfl]
        simp only [List.cons_append, List.nil_append]
        rw [parseStringBody.eq_def]
        simp [ih]
      · by_cases h3 : c = '\x08'
        · subst h3
          simp only [escapeChars]
          rw [show escChar '\x08' = ['\\', 'b'] from rfl]
          simp only [List.cons_append, List.nil_append]
          rw [parseStringBody.eq_def]
          simp [ih]
        · by_cases h4 : c = '\x0c'
          · subst h4
            simp only [escapeChars]
            rw [show escChar '\x0c' = ['\\', 'f'] from rfl]
            simp only [List.cons_append, List.nil_append]
            rw [parseStringBody.eq_def]
            simp [ih]
          · by_cases h5 : c = '\n'
            · subst h5
              simp only [escapeChars]
              rw [show escChar '\n' = ['\\', 'n'] from rfl]
              simp only [List.cons_append, List.nil_append]
              rw [parseStringBody.eq_def]
              simp [ih]
            · by_cases h6 : c = '\r'
              · subst h6
                simp only [escapeChars]
                rw [show escChar '\r' = ['\\', 'r'] from rfl]
                simp only [List.cons_append, List.nil_append]
                rw [parseStringBody.eq_def]
                simp [ih]
              · by_cases h7 : c = '\t'
                · subst h7
                  simp only [escapeChars]
                  rw [show escChar '\t' = ['\\', 't'] from rfl]
                  simp only [List.cons_append, List.nil_append]
                  rw [parseStringBody.eq_def]
                  simp [ih]
                · by_cases h8 : c.toNat < 32
                  · have hhi : c.toNat / 16 < 16 := by omega
                    have hlo : c.toNat % 16 < 16 := by omega
                    simp only [escapeChars, escChar, h1, h2, h3, h4, h5, h6, h7,
                      if_false, if_pos h8, List.cons_append, List.nil_append]
                    rw [parseStringBody.eq_def]
                    have hz : hexVal '0' = some 0 := rfl
                    simp only [hz, hexVal_hexDigitChar hhi, hexVal_hexDigitChar hlo]
                    have harith : c.toNat / 16 * 16 + c.toNat % 16 = c.toNat := by omega
                    simp [harith, Char.ofNat_toNat, ih]
                  · simp only [escapeChars, escChar, h1, h2, h3, h4, h5, h6, h7, h8,
                      if_false, List.cons_append, List.nil_append]
                    rw [parseStringBody.eq_def]
                    simp [h1, h2, h8, ih]

end JsonViz
namespace JsonViz

theorem skipWs_cons_of_not_ws {c : Char} {l : List Char} (h : jsonWsChar c = false) :
    (c :: l).dropWhile jsonWsChar = c :: l := by
  simp [List.dropWhile_cons, h]

theorem digitFree_cons {c : Char} (h : c.isDigit = false) (l : List Char) :
    ∀ c', (c :: l).head? = some c' → c'.isDigit = false := by
  intro c' hc'
  simp only [List.head?_cons, Option.some.injEq] at hc'
  subst hc'
  exact h

theorem jsonWsChar_eq_false_of_digit {c : Char} (h : c.isDigit = true) :
    jsonWsChar c = false := by
  rw [isDigit_iff_toNat] at h
  simp only [jsonWsChar, Bool.or_eq_false_iff, decide_eq_false_iff_not]
  omega

theorem stringMk_data (s : String) : (⟨s.data⟩ : String) = s := rfl

theorem headTokenJ (d : Json) :
    ∃ c t, encodeJ d = c :: t ∧
      (c = 'n' ∨ c = 't' ∨ c = 'f' ∨ c = '"' ∨ c = '[' ∨ c = '{' ∨ c = '-' ∨
        c.isDigit = true) := by
  cases d with
  | null => exact ⟨'n', _, rfl, by tauto⟩
  | bool b => cases b with
    | true => exact ⟨'t', _, rfl, by tauto⟩
    | false => exact ⟨'f', _, rfl, by tauto⟩
  | str s => exact ⟨'"', _, rfl, by tauto⟩
  | arr xs => exact ⟨'[', _, rfl, by tauto⟩
  | obj kvs => exact ⟨'{', _, rfl, by tauto⟩
  | num n =>
    by_cases hneg : n < 0
    · refine ⟨'-', natDigits n.natAbs, ?_, by tauto⟩
      simp [encodeJ, hneg]
    · rcases hnd : natDigits n.natAbs with _ | ⟨d0, ds⟩
      · exact absurd hnd (natDigits_ne_nil _)
      · refine ⟨d0, ds, ?_, ?_⟩
        · simp [encodeJ, hneg, hnd]
        · have : d0.isDigit = true :=
            natDigits_all_digits n.natAbs d0 (by rw [hnd]; simp)
          tauto

mutual

theorem parseValue_encodeJ (d : Json) (fuel : Nat) (rest : List Char)
    (hfuel : depthJ d ≤ fuel) (hrest : ∀ c, rest.head? = some c → c.isDigit = false) :
    parseValue fuel (encodeJ d ++ rest) = some (d, rest) := by
  cases fuel with
  | zero => cases d <;> simp [depthJ] at hfuel
  | succ f =>
    cases d with
    | null =>
      show parseValue (f + 1) (['n', 'u', 'l', 'l'] ++ rest) = _
      rw [parseValue.eq_def]
      simp only [List.cons_append, List.nil_append,
        skipWs_cons_of_not_ws (show jsonWsChar 'n' = false by decide)]
      simp
    | bool b =>
      cases b with
      | true =>
        show parseValue (f + 1) (['t', 'r', 'u', 'e'] ++ rest) = _
        rw [parseValue.eq_def]
        simp only [List.cons_append, List.nil_append,
          skipWs_cons_of_not_ws (show jsonWsChar 't' = false by decide)]
        simp
      | false =>
        show parseValue (f + 1) (['f', 'a', 'l', 's', 'e'] ++ rest) = _
        rw [parseValue.eq_def]
        simp only [List.cons_append, List.nil_append,
          skipWs_cons_of_not_ws (show jsonWsChar 'f' = false by decide)]
        simp
    | str s =>
      show parseValue (f + 1) (encodeStringL s.data ++ rest) = _
      rw [parseValue.eq_def]
      simp only [encodeStringL, List.cons_append, List.append_assoc, List.nil_append,
        skipWs_cons_of_not_ws (show jsonWsChar '"' = false by decide)]
      simp [parseStringBody_escapeChars]
    | num n =>
      by_cases hneg : n < 0
      · show parseValue (f + 1) (encodeJ (.num n) ++ rest) = _
        rw [show encodeJ (.num n) = '-' :: natDigits n.natAbs from by simp [encodeJ, hneg]]
        rw [parseValue.eq_def]
        simp only [List.cons_append,
          skipWs_cons_of_not_ws (show jsonWsChar '-' = false by decide)]
        simp [parsePosNumber_encode n.natAbs rest hrest]
        rw [abs_of_neg hneg, neg_neg]
      · show parseValue (f + 1) (encodeJ (.num n) ++ rest) = _
        rw [show encodeJ (.num n) = natDigits n.natAbs from by simp [encodeJ, hneg]]
        rcases hnd : natDigits n.natAbs with _ | ⟨d0, ds⟩
        · exact absurd hnd (natDigits_ne_nil _)
        · have hdig : d0.isDigit = true :=
            natDigits_all_digits n.natAbs d0 (by rw [hnd]; simp)
          have hne : ∀ x : Char, x.isDigit = false → ¬(d0 = x) := by
            intro x hx h
            rw [h] at hdig
            rw [hdig] at hx
            cases hx
          rw [parseValue.eq_def]
          simp only [List.cons_append,
            skipWs_cons_of_not_ws (jsonWsChar_eq_false_of_digit hdig)]
          simp only [hne 'n' (by decide), hne 't' (by decide), hne 'f' (by decide),
            hne '"' (by decide), hne '[' (by decide), hne '{' (by decide),
            hne '-' (by decide), if_false, hdig, if_true]
          rw [show d0 :: (ds ++ rest) = (d0 :: ds) ++ rest from rfl, ← hnd]
          simp [parsePosNumber_encode n.natAbs rest hrest]
          omega
    | arr xs =>
      cases xs with
      | nil =>
        show parseValue (f + 1) (['[', ']'] ++ rest) = _
        rw [parseValue.eq_def]
        simp only [List.cons_append, List.nil_append,
          skipWs_cons_of_not_ws (show jsonWsChar '[' = false by decide)]
        simp [skipWs_cons_of_not_ws (show jsonWsChar ']' = false by decide)]
      | cons v tl =>
        have hf : depthA (.cons v tl) ≤ f := by
          simp only [depthJ] at hfuel
          omega
        obtain ⟨c0, t0, hct, hprop⟩ := headTokenJ v
        have hc0ws : jsonWsChar c0 = false := by
          rcases hprop with h | h | h | h | h | h | h | h
          all_goals first
          | (subst h; decide)
          | (exact jsonWsChar_eq_false_of_digit h)
        have hc0ne : ¬(c0 = ']') := by
          rcases hprop with h | h | h | h | h | h | h | h
          all_goals first
          | (subst h; decide)
          | (intro hx; rw [hx] at h; cases h)
        obtain ⟨W, hW⟩ : ∃ W, encodeElems (.cons v tl) = c0 :: W := by
          cases tl with
          | nil =>
            refine ⟨t0, ?_⟩
            rw [show encodeElems (.cons v .nil) = encodeJ v from rfl, hct]
          | cons v' tl' =>
            refine ⟨t0 ++ ',' :: encodeElems (.cons v' tl'), ?_⟩
            rw [show encodeElems (.cons v (.cons v' tl')) =
              encodeJ v ++ ',' :: encodeElems (.cons v' tl') from rfl, hct]
            rfl
        have hpe : parseElems f (c0 :: (W ++ ']' :: rest)) = some (.cons v tl, rest) := by
          have h0 := parseElems_encode v tl f rest hf
          rwa [hW, List.cons_append] at h0
        show parseValue (f + 1)
          (('[' :: (encodeElems (.cons v tl) ++ [']'])) ++ rest) = _
        rw [parseValue.eq_def]
        simp only [List.cons_append, List.append_assoc, List.nil_append,
          skipWs_cons_of_not_ws (show jsonWsChar '[' = false by decide), hW,
          skipWs_cons_of_not_ws hc0ws]
        simp [hc0ne, hpe]
    | obj kvs =>
      cases kvs with
      | nil =>
        show parseValue (f + 1) (['{', '}'] ++ rest) = _
        rw [parseValue.eq_def]
        simp only [List.cons_append, List.nil_append,
          skipWs_cons_of_not_ws (show jsonWsChar '{' = false by decide)]
        simp [skipWs_cons_of_not_ws (show jsonWsChar '}' = false by decide)]
      | cons k v tl =>
        have hf : depthO (.cons k v tl) ≤ f := by
          simp only [depthJ] at hfuel
          omega
        obtain ⟨W, hW⟩ : ∃ W, encodeMembers (.cons k v tl) = '"' :: W := by
          cases tl with
          | nil =>
            exact ⟨escapeChars k.data ++ ['"'] ++ ':' :: encodeJ v, by
              rw [show encodeMembers (.cons k v .nil) =
                encodeStringL k.data ++ ':' :: encodeJ v from rfl]
              simp [encodeStringL]⟩
          | cons k' v' tl' =>
            exact ⟨escapeChars k.data ++ ['"'] ++ ':' :: encodeJ v ++
              ',' :: encodeMembers (.cons k' v' tl'), by
              rw [show encodeMembers (.cons k v (.cons k' v' tl')) =
                (encodeStringL k.data ++ ':' :: encodeJ v) ++
                  ',' :: encodeMembers (.cons k' v' tl') from rfl]
              simp [encodeStringL]⟩
        have hpm : parseMembers f ('"' :: (W ++ '}' :: rest)) = some (.cons k v tl, rest) := by
          have h0 := parseMembers_encode k v tl f rest hf
          rwa [hW, List.cons_append] at h0
        show parseValue (f + 1)
          (('{' :: (encodeMembers (.cons k v tl) ++ ['}'])) ++ rest) = _
        rw [parseValue.eq_def]
        simp only [List.cons_append, List.append_assoc, List.nil_append,
          skipWs_cons_of_not_ws (show jsonWsChar '{' = false by decide), hW,
          skipWs_cons_of_not_ws (show jsonWsChar '"' = false by decide)]
        simp [hpm]
  termination_by sizeOf d

theorem parseElems_encode (v : Json) (tl : JsonArr) (fuel : Nat) (rest : List Char)
    (hfuel : depthA (.cons v tl) ≤ fuel) :
    parseElems fuel (encodeElems (.cons v tl) ++ ']' :: rest) = some (.cons v tl, rest) := by
  cases fuel with
  | zero => simp [depthA] at hfuel
  | succ f =>
    cases tl with
    | nil =>
      have hv : parseValue f (encodeJ v ++ ']' :: rest) = some (v, ']' :: rest) :=
        parseValue_encodeJ v f (']' :: rest)
          (by simp only [depthA] at hfuel; omega)
          (digitFree_cons (by decide) _)
      rw [show encodeElems (.cons v .nil) = encodeJ v from rfl]
      rw [parseElems.eq_def]
      simp [hv, skipWs_cons_of_not_ws (show jsonWsChar ']' = false by decide)]
    | cons v' tl' =>
      have hv : parseValue f (encodeJ v ++
          ',' :: (encodeElems (.cons v' tl') ++ ']' :: rest)) =
          some (v, ',' :: (encodeElems (.cons v' tl') ++ ']' :: rest)) :=
        parseValue_encodeJ v f _
          (by simp only [depthA] at hfuel; omega)
          (digitFree_cons (by decide) _)
      have hrec : parseElems f (encodeElems (.cons v' tl') ++ ']' :: rest) =
          some (.cons v' tl', rest) :=
        parseElems_encode v' tl' f rest (by simp only [depthA] at hfuel ⊢; omega)
      rw [show encodeElems (.cons v (.cons v' tl')) =
        encodeJ v ++ ',' :: encodeElems (.cons v' tl') from rfl]
      rw [parseElems.eq_def]
      simp [List.append_assoc, List.cons_append, hv, hrec,
        skipWs_cons_of_not_ws (show jsonWsChar ',' = false by decide)]
  termination_by sizeOf (JsonArr.cons v tl)

theorem parseMembers_encode (k : String) (v : Json) (tl : JsonObj) (fuel : Nat)
    (rest : List Char) (hfuel : depthO (.cons k v tl) ≤ fuel) :
    parseMembers fuel (encodeMembers (.cons k v tl) ++ '}' :: rest) =
      some (.cons k v tl, rest) := by
  cases fuel with
  | zero => simp [depthO] at hfuel
  | succ f =>
    cases tl with
    | nil =>
      have hv : parseValue f (encodeJ v ++ '}' :: rest) = some (v, '}' :: rest) :=
        parseValue_encodeJ v f ('}' :: rest)
          (by simp only [depthO] at hfuel; omega)
          (digitFree_cons (by decide) _)
      rw [show encodeMembers (.cons k v .nil) =
        encodeStringL k.data ++ ':' :: encodeJ v from rfl]
      rw [parseMembers.eq_def]
      simp [encodeStringL, List.cons_append, List.append_assoc, List.nil_append,
        parseStringBody_escapeChars, hv, stringMk_data,
        skipWs_cons_of_not_ws (show jsonWsChar '"' = false by decide),
        skipWs_cons_of_not_ws (show jsonWsChar ':' = false by decide),
        skipWs_cons_of_not_ws (show jsonWsChar '}' = false by decide)]
    | cons k' v' tl' =>
      have hv : parseValue f (encodeJ v ++
          ',' :: (encodeMembers (.cons k' v' tl') ++ '}' :: rest)) =
          some (v, ',' :: (encodeMembers (.cons k' v' tl') ++ '}' :: rest)) :=
        parseValue_encodeJ v f _
          (by simp only [depthO] at hfuel; omega)
          (digitFree_cons (by decide) _)
      have hrec : parseMembers f (encodeMembers (.cons k' v' tl') ++ '}' :: rest) =
          some (.cons k' v' tl', rest) :=
        parseMembers_encode k' v' tl' f rest (by simp only [depthO] at hfuel ⊢; omega)
      rw [show encodeMembers (.cons k v (.cons k' v' tl')) =
        (encodeStringL k.data ++ ':' :: encodeJ v) ++
          ',' :: encodeMembers (.cons k' v' tl') from rfl]
      rw [parseMembers.eq_def]
      simp [encodeStringL, List.cons_append, List.append_assoc, List.nil_append,
        parseStringBody_escapeChars, hv, hrec, stringMk_data,
        skipWs_cons_of_not_ws (show jsonWsChar '"' = false by decide),
        skipWs_cons_of_not_ws (show jsonWsChar ':' = false by decide),
        skipWs_cons_of_not_ws (show jsonWsChar ',' = false by decide)]
  termination_by sizeOf (JsonObj.cons k v tl)

end

end JsonViz
namespace JsonViz

mutual

theorem depthJ_le_length (d : Json) : depthJ d ≤ (encodeJ d).length := by
  cases d with
  | null => simp [depthJ, encodeJ]
  | bool b => cases b <;> simp [depthJ, encodeJ]
  | num n =>
    have := natDigits_ne_nil n.natAbs
    have hlen : 1 ≤ (natDigits n.natAbs).length := by
      cases hnd : natDigits n.natAbs with
      | nil => exact absurd hnd this
      | cons a as => simp
    by_cases hneg : n < 0
    · simp [depthJ, encodeJ, hneg]
    · simp [depthJ, encodeJ, hneg]
      omega
  | str s => simp [depthJ, encodeStringL, encodeJ]
  | arr xs =>
    cases xs with
    | nil => simp [depthJ, depthA, encodeJ]
    | cons v tl =>
      have h := depthA_le_length v tl
      simp only [depthJ, encodeJ, List.length_cons, List.length_append,
        List.length_singleton]
      omega
  | obj kvs =>
    cases kvs with
    | nil => simp [depthJ, depthO, encodeJ]
    | cons k v tl =>
      have h := depthO_le_length k v tl
      simp only [depthJ, encodeJ, List.length_cons, List.length_append,
        List.length_singleton]
      omega
  termination_by sizeOf d

theorem depthA_le_length (v : Json) (tl : JsonArr) :
    depthA (.cons v tl) ≤ (encodeElems (.cons v tl)).length + 1 := by
  cases tl with
  | nil =>
    have h := depthJ_le_length v
    rw [show encodeElems (.cons v .nil) = encodeJ v from rfl]
    simp only [depthA]
    omega
  | cons v' tl' =>
    have h1 := depthJ_le_length v
    have h2 := depthA_le_length v' tl'
    rw [show encodeElems (.cons v (.cons v' tl')) =
      encodeJ v ++ ',' :: encodeElems (.cons v' tl') from rfl]
    simp only [depthA, List.length_append, List.length_cons] at h2 ⊢
    omega
  termination_by sizeOf (JsonArr.cons v tl)

theorem depthO_le_length (k : String) (v : Json) (tl : JsonObj) :
    depthO (.cons k v tl) ≤ (encodeMembers (.cons k v tl)).length + 1 := by
  cases tl with
  | nil =>
    have h := depthJ_le_length v
    rw [show encodeMembers (.cons k v .nil) =
      encodeStringL k.data ++ ':' :: encodeJ v from rfl]
    simp only [depthO, List.length_append, List.length_cons]
    omega
  | cons k' v' tl' =>
    have h1 := depthJ_le_length v
    have h2 := depthO_le_length k' v' tl'
    rw [show encodeMembers (.cons k v (.cons k' v' tl')) =
      (encodeStringL k.data ++ ':' :: encodeJ v) ++
        ',' :: encodeMembers (.cons k' v' tl') from rfl]
    simp only [depthO, List.length_append, List.length_cons] at h2 ⊢
    omega
  termination_by sizeOf (JsonObj.cons k v tl)

end

/-- `JSON.parse(JSON.stringify(d))` recovers `d` exactly. -/
theorem parseJson_encodeJson (d : Json) : parseJson (encodeJson d) = some d := by
  unfold parseJson
  have hd : (encodeJson d).data = encodeJ d := rfl
  rw [hd]
  have hfuel : depthJ d ≤ (encodeJ d).length + 1 := by
    have := depthJ_le_length d
    omega
  have h := parseValue_encodeJ d ((encodeJ d).length + 1) [] hfuel (by intro c hc; cases hc)
  rw [List.append_nil] at h
  rw [h]
  rfl

/-- Parsing the serialization of a string value yields that string. -/
theorem parseJson_encodeString (s : String) : parseJson (encodeString s) = some (.str s) := by
  have h : encodeString s = encodeJson (.str s) := rfl
  rw [h, parseJson_encodeJson]

end JsonViz
namespace JsonViz

/-! ## Shape facts about serializer output -/

theorem jsWsChar_eq_false_ascii {c : Char} (h1 : 33 ≤ c.toNat) (h2 : c.toNat ≤ 125) :
    jsWsChar c = false := by
  simp only [jsWsChar, Bool.or_eq_false_iff, decide_eq_false_iff_not,
    Bool.and_eq_false_iff, decide_eq_false_iff_not]
  omega

theorem escChar_length_pos (c : Char) : 1 ≤ (escChar c).length := by
  unfold escChar
  repeat' split
  all_goals simp

theorem escapeChars_length_ge (cs : List Char) : cs.length ≤ (escapeChars cs).length := by
  induction cs with
  | nil => simp [escapeChars]
  | cons c cs ih =>
    have := escChar_length_pos c
    simp only [escapeChars, List.length_append, List.length_cons]
    omega

theorem encodeStringL_length (cs : List Char) :
    cs.length + 2 ≤ (encodeStringL cs).length := by
  have := escapeChars_length_ge cs
  simp only [encodeStringL, List.length_cons, List.length_append, List.length_singleton]
  omega

theorem getLast?_cons_concat (c : Char) (l : List Char) (a : Char) :
    (c :: (l ++ [a])).getLast? = some a := by
  rw [show c :: (l ++ [a]) = (c :: l) ++ [a] from rfl, List.getLast?_concat]

theorem getLast?_cons_of_ne_nil (c : Char) {l : List Char} (h : l ≠ []) :
    (c :: l).getLast? = l.getLast? := by
  cases l with
  | nil => exact absurd rfl h
  | cons a as => simp [List.getLast?_cons_cons]

theorem headProps_encodeJ (d : Json) :
    ∃ c t, encodeJ d = c :: t ∧ 33 ≤ c.toNat ∧ c.toNat ≤ 123 := by
  obtain ⟨c, t, hct, hprop⟩ := headTokenJ d
  refine ⟨c, t, hct, ?_⟩
  rcases hprop with h | h | h | h | h | h | h | h
  all_goals first
  | (subst h; constructor <;> decide)
  | (rw [isDigit_iff_toNat] at h; omega)

theorem natDigits_getLast_digit (n : Nat) :
    ∀ c, (natDigits n).getLast? = some c → c.isDigit = true := by
  intro c hc
  exact natDigits_all_digits n c (List.mem_of_getLast?_eq_some hc)

theorem lastProps_encodeJ (d : Json) :
    ∃ c, (encodeJ d).getLast? = some c ∧ 33 ≤ c.toNat ∧ c.toNat ≤ 125 := by
  cases d with
  | null => exact ⟨'l', rfl, by decide, by decide⟩
  | bool b => cases b with
    | true => exact ⟨'e', rfl, by decide, by decide⟩
    | false => exact ⟨'e', rfl, by decide, by decide⟩
  | str s => exact ⟨'"', getLast?_cons_concat _ _ _, by decide, by decide⟩
  | arr xs => exact ⟨']', getLast?_cons_concat _ _ _, by decide, by decide⟩
  | obj kvs => exact ⟨'}', getLast?_cons_concat _ _ _, by decide, by decide⟩
  | num n =>
    have hne := natDigits_ne_nil n.natAbs
    rcases hlast : (natDigits n.natAbs).getLast? with _ | c
    · rw [List.getLast?_eq_none_iff] at hlast
      exact absurd hlast hne
    · have hdig := natDigits_getLast_digit n.natAbs c hlast
      rw [isDigit_iff_toNat] at hdig
      refine ⟨c, ?_, by omega, by omega⟩
      by_cases hneg : n < 0
      · rw [show encodeJ (.num n) = '-' :: natDigits n.natAbs from by simp [encodeJ, hneg]]
        rw [getLast?_cons_of_ne_nil _ hne]
        exact hlast
      · rw [show encodeJ (.num n) = natDigits n.natAbs from by simp [encodeJ, hneg]]
        exact hlast

/-- `encodeJ` output passes `normalizeL` unchanged. -/
theorem normalizeL_encodeJ (d : Json) : normalizeL (encodeJ d) = encodeJ d := by
  obtain ⟨c, t, hct, hh1, hh2⟩ := headProps_encodeJ d
  obtain ⟨c', hl, hl1, hl2⟩ := lastProps_encodeJ d
  unfold normalizeL
  have hbom : stripBom (encodeJ d) = encodeJ d := by
    rw [hct]
    rw [stripBom.eq_def]
    split
    · rename_i heq
      injection heq with h1 _
      rw [h1] at hh2
      exact absurd hh2 (by decide)
    · rfl
  rw [hbom]
  apply trimWith_eq_self
  · intro x hx
    rw [hct] at hx
    simp only [List.head?_cons, Option.some.injEq] at hx
    subst hx
    exact jsWsChar_eq_false_ascii hh1 (by omega)
  · intro x hx
    rw [hl] at hx
    injection hx with hx
    subst hx
    exact jsWsChar_eq_false_ascii hl1 hl2

/-- `encodeStringL` output passes `normalizeL` unchanged. -/
theorem normalizeL_encodeStringL (cs : List Char) :
    normalizeL (encodeStringL cs) = encodeStringL cs := by
  unfold normalizeL encodeStringL
  have hbom : stripBom ('"' :: (escapeChars cs ++ ['"'])) =
      '"' :: (escapeChars cs ++ ['"']) := rfl
  rw [hbom]
  apply trimWith_eq_self
  · intro x hx
    simp only [List.head?_cons, Option.some.injEq] at hx
    subst hx
    decide
  · intro x hx
    rw [getLast?_cons_concat] at hx
    injection hx with hx
    subst hx
    decide

end JsonViz
namespace JsonViz

/-- If normalization is the identity and the first character is not a single
quote or backtick, `stripOuterL` is the identity. -/
theorem stripOuterL_eq_self {l : List Char} (hn : normalizeL l = l)
    (hh : ∀ c, l.head? = some c → c.toNat ≠ 39 ∧ c.toNat ≠ 96) :
    stripOuterL l = l := by
  unfold stripOuterL
  rw [hn]
  by_cases hlen : l.length < 2
  · simp [hlen]
  · rw [if_neg hlen]
    cases l with
    | nil => rfl
    | cons c t =>
      obtain ⟨h39, h96⟩ := hh c rfl
      have hq : ¬(c = '\'') := by
        intro h
        rw [h] at h39
        exact h39 rfl
      have hb : ¬(c = '`') := by
        intro h
        rw [h] at h96
        exact h96 rfl
      simp only [List.head?_cons]
      rcases hgl : (c :: t).getLast? with _ | la
      · simp at hgl
      · simp only
        rw [if_neg]
        intro hcon
        simp only [Bool.or_eq_true, Bool.and_eq_true, decide_eq_true_eq] at hcon
        rcases hcon with ⟨h1, _⟩ | ⟨h1, _⟩
        · exact hq h1
        · exact hb h1

/-- The `E_N` towers: data, heads, lengths. -/
theorem eTower_zero (d : Json) : eTower d 0 = encodeJson d := rfl

theorem eTower_succ (d : Json) (n : Nat) : eTower d (n + 1) = encodeString (eTower d n) := rfl

theorem normalizeJs_eTower (d : Json) (n : Nat) : normalizeJs (eTower d n) = eTower d n := by
  cases n with
  | zero =>
    show normalizeJs (encodeJson d) = encodeJson d
    unfold normalizeJs encodeJson
    rw [show (⟨encodeJ d⟩ : String).data = encodeJ d from rfl, normalizeL_encodeJ]
  | succ n =>
    show normalizeJs (encodeString (eTower d n)) = encodeString (eTower d n)
    unfold normalizeJs encodeString
    rw [show (⟨encodeStringL (eTower d n).data⟩ : String).data =
      encodeStringL (eTower d n).data from rfl, normalizeL_encodeStringL]

theorem stripOuter_eTower (d : Json) (n : Nat) :
    stripOuterNonJsonQuotes (eTower d n) = eTower d n := by
  unfold stripOuterNonJsonQuotes
  cases n with
  | zero =>
    show (⟨stripOuterL (encodeJ d)⟩ : String) = ⟨encodeJ d⟩
    have hh : ∀ c, (encodeJ d).head? = some c → c.toNat ≠ 39 ∧ c.toNat ≠ 96 := by
      intro c hc
      obtain ⟨c0, t0, hct, hprop⟩ := headTokenJ d
      rw [hct] at hc
      simp only [List.head?_cons, Option.some.injEq] at hc
      subst hc
      rcases hprop with h | h | h | h | h | h | h | h
      all_goals first
      | (subst h; constructor <;> decide)
      | (rw [isDigit_iff_toNat] at h; omega)
    rw [stripOuterL_eq_self (normalizeL_encodeJ d) hh]
  | succ n =>
    show (⟨stripOuterL (encodeStringL (eTower d n).data)⟩ : String) =
      ⟨encodeStringL (eTower d n).data⟩
    have hh : ∀ c, (encodeStringL (eTower d n).data).head? = some c →
        c.toNat ≠ 39 ∧ c.toNat ≠ 96 := by
      intro c hc
      simp only [encodeStringL, List.head?_cons, Option.some.injEq] at hc
      subst hc
      constructor <;> decide
    rw [stripOuterL_eq_self (normalizeL_encodeStringL _) hh]

theorem eTower_length_lt (d : Json) (n : Nat) :
    (eTower d n).data.length < (eTower d (n + 1)).data.length := by
  rw [eTower_succ]
  show _ < (encodeStringL (eTower d n).data).length
  have := encodeStringL_length (eTower d n).data
  omega

theorem eTower_data_length_pos (d : Json) (n : Nat) : 1 ≤ (eTower d n).data.length := by
  cases n with
  | zero =>
    obtain ⟨c, t, hct, _, _⟩ := headProps_encodeJ d
    show 1 ≤ (encodeJ d).length
    rw [hct]
    simp
  | succ n =>
    show 1 ≤ (encodeStringL (eTower d n).data).length
    have := encodeStringL_length (eTower d n).data
    omega

theorem parseJson_eTower_succ (d : Json) (n : Nat) :
    parseJson (eTower d (n + 1)) = some (.str (eTower d n)) := by
  rw [eTower_succ]
  exact parseJson_encodeString _

theorem parseJson_eTower_isSome (d : Json) (n : Nat) :
    (parseJson (eTower d n)).isSome = true := by
  cases n with
  | zero => rw [eTower_zero, parseJson_encodeJson]; rfl
  | succ n => rw [parseJson_eTower_succ]; rfl

end JsonViz
namespace JsonViz

theorem contains_eq_false_of_forall_ne {seen : List String} {x : String}
    (h : ∀ s ∈ seen, ¬(s = x)) : seen.contains x = false := by
  induction seen with
  | nil => rfl
  | cons a as ih =>
    simp only [List.contains_cons, Bool.or_eq_false_iff]
    constructor
    · exact beq_eq_false_iff_ne.mpr (fun he => h a (by simp) he.symm)
    · exact ih (fun s hs => h s (by simp [hs]))

theorem smartLoop_eTower (d : Json) (hd : d.isStr = false) (k : Nat) :
    ∀ (fuel depth : Nat) (seen : List String) (le : Option String) (md : Nat),
      k < fuel →
      (∀ s ∈ seen, (eTower d k).data.length < s.data.length) →
      smartLoop fuel (eTower d k) depth seen le md = .ok ⟨d, depth + k⟩ := by
  induction k with
  | zero =>
    intro fuel depth seen le md hk hseen
    cases fuel with
    | zero => omega
    | succ f =>
      have hcont : seen.contains (eTower d 0) = false := by
        apply contains_eq_false_of_forall_ne
        intro s hs heq
        have := hseen s hs
        rw [heq] at this
        omega
      have hnm : eTower d 0 ∉ seen := by
        intro hmem
        have := hseen _ hmem
        omega
      have hp : parseJson (eTower d 0) = some d := by
        rw [eTower_zero]
        exact parseJson_encodeJson d
      rw [smartLoop.eq_def]
      cases d
      case str s => simp [Json.isStr] at hd
      all_goals simp [hcont, hp, hnm]
  | succ k ih =>
    intro fuel depth seen le md hk hseen
    cases fuel with
    | zero => omega
    | succ f =>
      have hcont : seen.contains (eTower d (k + 1)) = false := by
        apply contains_eq_false_of_forall_ne
        intro s hs heq
        have := hseen s hs
        rw [heq] at this
        omega
      have hp : parseJson (eTower d (k + 1)) = some (.str (eTower d k)) :=
        parseJson_eTower_succ d k
      have hb1 : (eTower d k != "") = true := by
        rw [bne_iff_ne]
        intro h
        have := eTower_data_length_pos d k
        rw [h] at this
        simp at this
      have hb2 : (eTower d k != eTower d (k + 1)) = true := by
        rw [bne_iff_ne]
        intro h
        have := eTower_length_lt d k
        rw [h] at this
        omega
      have hinv : ∀ s ∈ eTower d (k + 1) :: seen,
          (eTower d k).data.length < s.data.length := by
        intro s hs
        rcases List.mem_cons.mp hs with hs | hs
        · rw [hs]
          exact eTower_length_lt d k
        · have h1 := eTower_length_lt d k
          have h2 := hseen s hs
          omega
      have hnm : eTower d (k + 1) ∉ seen := by
        intro hmem
        have := hseen _ hmem
        omega
      have hrec := ih f (depth + 1) (eTower d (k + 1) :: seen) le md (by omega) hinv
      rw [smartLoop.eq_def]
      simp only [hcont, Bool.false_eq_true, if_false, hp, normalizeJs_eTower,
        hb1, hb2, parseJson_eTower_isSome, Bool.and_true, Bool.true_and, if_true,
        hrec]
      simp [hnm, hrec]
      omega

end JsonViz
namespace JsonViz

theorem smartParse_eTower (d : Json) (hd : d.isStr = false) (N md : Nat) (h : N < md) :
    smartParseJsonInput (eTower d N) md = .ok ⟨d, N⟩ := by
  unfold smartParseJsonInput
  rw [stripOuter_eTower]
  have := smartLoop_eTower d hd N md 0 [] none md h (by intro s hs; cases hs)
  simpa using this

theorem stripBom_encodeJ (d : Json) : stripBom (encodeJ d) = encodeJ d := by
  obtain ⟨c, t, hct, hh1, hh2⟩ := headProps_encodeJ d
  rw [hct, stripBom.eq_def]
  split
  · rename_i heq
    injection heq with h1 _
    rw [h1] at hh2
    exact absurd hh2 (by decide)
  · rfl

theorem jsTrim_eTower (d : Json) (n : Nat) : jsTrim (eTower d n) = eTower d n := by
  cases n with
  | zero =>
    show (⟨trimWith jsWsChar (encodeJ d)⟩ : String) = ⟨encodeJ d⟩
    have h : trimWith jsWsChar (encodeJ d) = normalizeL (encodeJ d) := by
      unfold normalizeL
      rw [stripBom_encodeJ]
    rw [h, normalizeL_encodeJ]
  | succ n =>
    show (⟨trimWith jsWsChar (encodeStringL (eTower d n).data)⟩ : String) = _
    have h : trimWith jsWsChar (encodeStringL (eTower d n).data) =
        normalizeL (encodeStringL (eTower d n).data) := by
      unfold normalizeL
      rfl
    rw [h, normalizeL_encodeStringL]
    rfl

theorem eTower_ne_empty (d : Json) (n : Nat) : eTower d n ≠ "" := by
  intro h
  have := eTower_data_length_pos d n
  rw [h] at this
  simp at this

theorem gedLoop_eTower (d : Json) (hd : d.isStr = false) (k : Nat) :
    ∀ fuel depth, k < fuel → gedLoop fuel (eTower d k) depth = depth + k := by
  induction k with
  | zero =>
    intro fuel depth hk
    cases fuel with
    | zero => omega
    | succ f =>
      have hp : parseJson (eTower d 0) = some d := by
        rw [eTower_zero]
        exact parseJson_encodeJson d
      rw [gedLoop.eq_def]
      cases d
      case str s => simp [Json.isStr] at hd
      all_goals simp [hp]
  | succ k ih =>
    intro fuel depth hk
    cases fuel with
    | zero => omega
    | succ f =>
      have hp : parseJson (eTower d (k + 1)) = some (.str (eTower d k)) :=
        parseJson_eTower_succ d k
      have hb2 : (eTower d k != eTower d (k + 1)) = true := by
        rw [bne_iff_ne]
        intro h
        have := eTower_length_lt d k
        rw [h] at this
        omega
      have hrec := ih f (depth + 1) (by omega)
      rw [gedLoop.eq_def]
      simp only [hp, jsTrim_eTower, hb2, parseJson_eTower_isSome,
        Bool.and_true, Bool.true_and, if_true, hrec]
      omega

theorem getEscapeDepth_eTower (d : Json) (hd : d.isStr = false) (N : Nat) (h : N < 20) :
    getEscapeDepth (eTower d N) = N := by
  unfold getEscapeDepth
  rw [jsTrim_eTower]
  rw [if_neg (eTower_ne_empty d N)]
  have := gedLoop_eTower d hd N 20 0 h
  simpa using this

end JsonViz
namespace JsonViz

/-- Combined specification of the instrumented loop: erasing the
instrumentation yields `smartLoop`, the loop body is entered at most `fuel`
times, and a failing run reports `maxDepthTried = maxDepth` together with
the final `depth` and `lastError` of the loop. -/
theorem smartLoopTraced_spec (fuel : Nat) :
    ∀ current depth seen le md,
      ((smartLoopTraced fuel current depth seen le md).result =
        smartLoop fuel current depth seen le md) ∧
      ((smartLoopTraced fuel current depth seen le md).iters ≤ fuel) ∧
      (∀ e, (smartLoopTraced fuel current depth seen le md).result = .error e →
        e.maxDepthTried = md ∧
        e.escapeDepth = (smartLoopTraced fuel current depth seen le md).finalDepth ∧
        e.cause = (smartLoopTraced fuel current depth seen le md).finalLastError) := by
  induction fuel with
  | zero =>
    intro current depth seen le md
    refine ⟨rfl, by simp [smartLoopTraced], ?_⟩
    intro e h
    simp [smartLoopTraced] at h ⊢
    rw [← h]
    exact ⟨rfl, rfl, rfl⟩
  | succ f ih =>
    intro current depth seen le md
    rw [smartLoopTraced.eq_def, smartLoop.eq_def]
    cases hc : seen.contains current with
    | true =>
      refine ⟨by simp [hc], by simp [hc], ?_⟩
      intro e h
      simp [hc] at h ⊢
      rw [← h]
      exact ⟨rfl, rfl, rfl⟩
    | false =>
      rcases hp : parseJson current with _ | v
      · -- parse failed
        cases hs : (stripOuterNonJsonQuotes current != current) with
        | true =>
          obtain ⟨ih1, ih2, ih3⟩ :=
            ih (stripOuterNonJsonQuotes current) depth (current :: seen) (some current) md
          refine ⟨by simp [hc, hp, hs, ih1], by simpa [hc, hp, hs] using ih2, ?_⟩
          intro e h
          simp only [hc, hp, hs] at h ⊢
          simp at h ⊢
          exact ih3 e h
        | false =>
          rcases hd : tryDecodeAsJsonStringLiteral current with _ | v2
          · refine ⟨by simp [hc, hp, hs, hd], by simp [hc, hp, hs, hd], ?_⟩
            intro e h
            simp [hc, hp, hs, hd] at h ⊢
            rw [← h]
            exact ⟨rfl, rfl, rfl⟩
          · rcases v2 with _ | _ | _ | s2 | _ | _
            case str =>
              cases hn : (normalizeJs s2 != "" && normalizeJs s2 != current) with
              | true =>
                obtain ⟨ih1, ih2, ih3⟩ :=
                  ih (normalizeJs s2) (depth + 1) (current :: seen) (some current) md
                refine ⟨by simp [hc, hp, hs, hd, hn, ih1],
                  by simpa [hc, hp, hs, hd, hn] using ih2, ?_⟩
                intro e h
                simp only [hc, hp, hs, hd, hn] at h ⊢
                simp at h ⊢
                exact ih3 e h
              | false =>
                refine ⟨by simp [hc, hp, hs, hd, hn], by simp [hc, hp, hs, hd, hn], ?_⟩
                intro e h
                simp [hc, hp, hs, hd, hn] at h ⊢
                rw [← h]
                exact ⟨rfl, rfl, rfl⟩
            all_goals
              refine ⟨by simp [hc, hp, hs, hd], by simp [hc, hp, hs, hd], ?_⟩
            all_goals
              intro e h
            all_goals
              simp [hc, hp, hs, hd] at h ⊢
            all_goals
              rw [← h]
            all_goals
              exact ⟨rfl, rfl, rfl⟩
      · -- parse succeeded
        rcases v with _ | _ | _ | s | _ | _
        case str =>
          cases h1 : (normalizeJs s != "" && normalizeJs s != current &&
              (parseJson (normalizeJs s)).isSome) with
          | true =>
            obtain ⟨ih1, ih2, ih3⟩ :=
              ih (normalizeJs s) (depth + 1) (current :: seen) le md
            refine ⟨by simp [hc, hp, h1, ih1], by simpa [hc, hp, h1] using ih2, ?_⟩
            intro e h
            simp only [hc, hp, h1] at h ⊢
            simp at h ⊢
            exact ih3 e h
          | false =>
            cases h2 : (normalizeJs s != "" && normalizeJs s != current &&
                hasEscapeSeq (normalizeJs s)) with
            | true =>
              obtain ⟨ih1, ih2, ih3⟩ :=
                ih (normalizeJs s) (depth + 1) (current :: seen) le md
              refine ⟨by simp [hc, hp, h1, h2, ih1], by simpa [hc, hp, h1, h2] using ih2, ?_⟩
              intro e h
              simp only [hc, hp, h1, h2] at h ⊢
              simp at h ⊢
              exact ih3 e h
            | false =>
              refine ⟨by simp [hc, hp, h1, h2], by simp [hc, hp, h1, h2], ?_⟩
              intro e h
              simp [hc, hp, h1, h2] at h
        all_goals
          refine ⟨by simp [hc, hp], by simp [hc, hp], ?_⟩
        all_goals
          intro e h
        all_goals
          simp [hc, hp] at h

end JsonViz
namespace JsonViz

theorem smartParseTraced_result (raw : String) (md : Nat) :
    (smartParseTraced raw md).result = smartParseJsonInput raw md :=
  (smartLoopTraced_spec md (stripOuterNonJsonQuotes raw) 0 [] none md).1

theorem smartParseTraced_iters_le (raw : String) (md : Nat) :
    (smartParseTraced raw md).iters ≤ md :=
  (smartLoopTraced_spec md (stripOuterNonJsonQuotes raw) 0 [] none md).2.1

/-- One unfolding of the loop on a self-decoding string: direct parse fails,
quote stripping makes no change, and the string-literal decode normalizes
back to the same string, so the loop breaks out of the decode step after a
single iteration (the `noProgress` exit), without touching `depth`. -/
theorem smartParseTraced_noProgress (raw : String) (md : Nat) (t : String)
    (hmd : 1 ≤ md)
    (hp : parseJson (stripOuterNonJsonQuotes raw) = none)
    (hs : stripOuterNonJsonQuotes (stripOuterNonJsonQuotes raw) = stripOuterNonJsonQuotes raw)
    (hd : tryDecodeAsJsonStringLiteral (stripOuterNonJsonQuotes raw) = some (.str t))
    (hn : normalizeJs t = stripOuterNonJsonQuotes raw) :
    smartParseTraced raw md =
      ⟨.error ⟨some (stripOuterNonJsonQuotes raw), md, 0⟩, 1, .noProgress, 0,
        some (stripOuterNonJsonQuotes raw)⟩ := by
  unfold smartParseTraced
  cases md with
  | zero => omega
  | succ m =>
    rw [smartLoopTraced.eq_def]
    have hb : (stripOuterNonJsonQuotes (stripOuterNonJsonQuotes raw) !=
        stripOuterNonJsonQuotes raw) = false := by
      rw [bne_eq_false_iff_eq]
      exact hs
    simp [hp, hd, hn, hb]

end JsonViz
namespace JsonViz

/-- The normalizer fails on the empty string, for every depth budget. -/
theorem smartParse_empty (md : Nat) : ∃ e, smartParseJsonInput "" md = .error e := by
  unfold smartParseJsonInput
  cases md with
  | zero => exact ⟨_, rfl⟩
  | succ m =>
    rw [show stripOuterNonJsonQuotes "" = "" from rfl]
    rw [smartLoop.eq_def]
    exact ⟨_, rfl⟩

/-- A whitespace-only string trims to the empty string. -/
theorem jsTrim_eq_empty_of_ws {raw : String} (h : ∀ c ∈ raw.data, jsWsChar c = true) :
    jsTrim raw = "" := by
  unfold jsTrim
  rw [trimWith_eq_nil_of_all h]

end JsonViz
namespace JsonViz

theorem parseValue_some_head (fuel : Nat) (cs : List Char) (v : Json) (r0 : List Char)
    (h : parseValue fuel cs = some (v, r0)) :
    ∃ c r, cs.dropWhile jsonWsChar = c :: r ∧
      (c = 'n' ∨ c = 't' ∨ c = 'f' ∨ c = '"' ∨ c = '[' ∨ c = '{' ∨ c = '-' ∨
        c.isDigit = true) := by
  cases fuel with
  | zero => simp [parseValue] at h
  | succ f =>
    rw [parseValue.eq_def] at h
    rcases hu : cs.dropWhile jsonWsChar with _ | ⟨c, r⟩
    · rw [hu] at h
      simp at h
    · rw [hu] at h
      refine ⟨c, r, rfl, ?_⟩
      by_cases h1 : c = 'n'
      · tauto
      by_cases h2 : c = 't'
      · tauto
      by_cases h3 : c = 'f'
      · tauto
      by_cases h4 : c = '"'
      · tauto
      by_cases h5 : c = '['
      · tauto
      by_cases h6 : c = '{'
      · tauto
      by_cases h7 : c = '-'
      · tauto
      by_cases h8 : c.isDigit = true
      · tauto
      simp [h1, h2, h3, h4, h5, h6, h7, h8] at h

theorem parseJson_some_shape {J : String} {v : Json} (h : parseJson J = some v) :
    ∃ c r, J.data.dropWhile jsonWsChar = c :: r ∧
      (c = 'n' ∨ c = 't' ∨ c = 'f' ∨ c = '"' ∨ c = '[' ∨ c = '{' ∨ c = '-' ∨
        c.isDigit = true) := by
  unfold parseJson at h
  rcases hpv : parseValue (J.data.length + 1) J.data with _ | ⟨v2, rest⟩
  · rw [hpv] at h
    simp at h
  · exact parseValue_some_head _ _ v2 rest hpv

theorem tokenStart_facts {c : Char}
    (h : c = 'n' ∨ c = 't' ∨ c = 'f' ∨ c = '"' ∨ c = '[' ∨ c = '{' ∨ c = '-' ∨
      c.isDigit = true) :
    34 ≤ c.toNat ∧ c.toNat ≤ 123 ∧ c.toNat ≠ 39 ∧ c.toNat ≠ 96 := by
  rcases h with h | h | h | h | h | h | h | h
  all_goals first
  | (subst h; refine ⟨by decide, by decide, by decide, by decide⟩)
  | (rw [isDigit_iff_toNat] at h
     exact ⟨by omega, by omega, by omega, by omega⟩)

theorem jsWsChar_of_jsonWsChar {c : Char} (h : jsonWsChar c = true) : jsWsChar c = true := by
  simp only [jsonWsChar, Bool.or_eq_true, decide_eq_true_eq] at h
  simp only [jsWsChar, Bool.or_eq_true, decide_eq_true_eq]
  omega

theorem stripBom_eq_self_of_head {l : List Char}
    (h : ∀ c0, l.head? = some c0 → c0.toNat ≠ 0xfeff) : stripBom l = l := by
  rw [stripBom.eq_def]
  split
  · exact absurd (by decide : ('﻿').toNat = 0xfeff) (h _ rfl)
  · rfl

theorem backDrop_concat {p : Char → Bool} :
    ∀ (l : List Char) (c : Char), p c = false →
      ∃ r2, ((l ++ [c]).dropWhile p) = r2 ++ [c] := by
  intro l
  induction l with
  | nil =>
    intro c hc
    refine ⟨[], ?_⟩
    simp [List.dropWhile_cons, hc]
  | cons a as ih =>
    intro c hc
    by_cases ha : p a
    · obtain ⟨r2, hr2⟩ := ih c hc
      refine ⟨r2, ?_⟩
      simp [List.dropWhile_cons, ha, hr2]
    · refine ⟨a :: (as), ?_⟩
      simp [List.dropWhile_cons, ha]

/-- Head of a both-ends trim, when the first character after the front trim
is not whitespace. -/
theorem trimWith_head {p : Char → Bool} {l : List Char} {c : Char} {r : List Char}
    (hfront : l.dropWhile p = c :: r) (hc : p c = false) :
    ∃ r2, trimWith p l = c :: r2 := by
  unfold trimWith
  rw [hfront]
  have hrev : (c :: r).reverse = r.reverse ++ [c] := by simp
  rw [hrev]
  obtain ⟨r2, hr2⟩ := backDrop_concat r.reverse c hc
  rw [hr2]
  exact ⟨r2.reverse, by simp⟩

end JsonViz
namespace JsonViz

/-- `stripOuterNonJsonQuotes` only normalizes when the normalized head is
not a single quote or backtick. -/
theorem stripOuterL_eq_normalizeL {l : List Char}
    (hh : ∀ c0, (normalizeL l).head? = some c0 → c0.toNat ≠ 39 ∧ c0.toNat ≠ 96) :
    stripOuterL l = normalizeL l := by
  unfold stripOuterL
  by_cases hlen : (normalizeL l).length < 2
  · simp [hlen]
  · rw [if_neg hlen]
    rcases hnl : normalizeL l with _ | ⟨c, t⟩
    · rfl
    · obtain ⟨h39, h96⟩ := hh c (by rw [hnl]; rfl)
      simp only [List.head?_cons]
      rcases hgl : (c :: t).getLast? with _ | la
      · simp at hgl
      · simp only
        rw [if_neg]
        intro hcon
        simp only [Bool.or_eq_true, Bool.and_eq_true, decide_eq_true_eq] at hcon
        rcases hcon with ⟨h1, _⟩ | ⟨h1, _⟩
        · rw [h1] at h39
          exact h39 rfl
        · rw [h1] at h96
          exact h96 rfl

/-- On a valid JSON text, the initial quote-stripping step of the
normalizer reduces to a plain JavaScript trim. -/
theorem stripOuter_of_parse {J : String} {v : Json} (hJ : parseJson J = some v) :
    stripOuterNonJsonQuotes J = ⟨trimWith jsWsChar J.data⟩ := by
  obtain ⟨c, r, hu, htok⟩ := parseJson_some_shape hJ
  obtain ⟨h34, h123, h39, h96⟩ := tokenStart_facts htok
  have hsplit : J.data = J.data.takeWhile jsonWsChar ++ (c :: r) := by
    rw [← hu, List.takeWhile_append_dropWhile]
  have hbom : stripBom J.data = J.data := by
    apply stripBom_eq_self_of_head
    intro c0 hc0
    rcases hw : J.data.takeWhile jsonWsChar with _ | ⟨x, w'⟩
    · rw [hsplit, hw, List.nil_append] at hc0
      simp only [List.head?_cons, Option.some.injEq] at hc0
      subst hc0
      omega
    · rw [hsplit, hw, List.cons_append] at hc0
      simp only [List.head?_cons, Option.some.injEq] at hc0
      have hx : jsonWsChar x = true := by
        have hmem : x ∈ J.data.takeWhile jsonWsChar := by rw [hw]; simp
        exact List.mem_takeWhile_imp hmem
      rw [hc0] at hx
      simp only [jsonWsChar, Bool.or_eq_true, decide_eq_true_eq] at hx
      omega
  have hfront : J.data.dropWhile jsWsChar = c :: r := by
    conv_lhs => rw [hsplit]
    rw [dropWhile_append_all _ (by
      intro x hx
      exact jsWsChar_of_jsonWsChar (List.mem_takeWhile_imp hx))]
    exact dropWhile_eq_self_of_head (by
      intro c0 hc0
      simp only [List.head?_cons, Option.some.injEq] at hc0
      subst hc0
      exact jsWsChar_eq_false_ascii (by omega) (by omega))
  have hnorm : normalizeL J.data = trimWith jsWsChar J.data := by
    unfold normalizeL
    rw [hbom]
  obtain ⟨r2, hr2⟩ := trimWith_head hfront
    (jsWsChar_eq_false_ascii (by omega) (by omega))
  unfold stripOuterNonJsonQuotes
  rw [stripOuterL_eq_normalizeL, hnorm]
  intro c0 hc0
  rw [hnorm, hr2] at hc0
  simp only [List.head?_cons, Option.some.injEq] at hc0
  subst hc0
  omega

/-- Wrapping a valid JSON text in matching single quotes or backticks:
the initial stripping removes the pair and reduces to the same trim. -/
theorem stripOuter_wrap (J : String) (q : Char)
    (hq : q = '\'' ∨ q = '`') :
    stripOuterNonJsonQuotes ⟨q :: (J.data ++ [q])⟩ = ⟨trimWith jsWsChar J.data⟩ := by
  have hq39 : q.toNat = 39 ∨ q.toNat = 96 := by
    rcases hq with h | h <;> subst h
    · left; rfl
    · right; rfl
  have hqws : jsWsChar q = false := by
    simp only [jsWsChar, Bool.or_eq_false_iff, decide_eq_false_iff_not,
      Bool.and_eq_false_iff, decide_eq_false_iff_not]
    omega
  have hnorm : normalizeL (q :: (J.data ++ [q])) = q :: (J.data ++ [q]) := by
    unfold normalizeL
    rw [stripBom_eq_self_of_head (by
      intro c0 hc0
      simp only [List.head?_cons, Option.some.injEq] at hc0
      subst hc0
      omega)]
    apply trimWith_eq_self
    · intro c0 hc0
      simp only [List.head?_cons, Option.some.injEq] at hc0
      subst hc0
      exact hqws
    · intro c0 hc0
      rw [getLast?_cons_concat] at hc0
      injection hc0 with hc0
      subst hc0
      exact hqws
  unfold stripOuterNonJsonQuotes
  show (⟨stripOuterL (q :: (J.data ++ [q]))⟩ : String) = _
  unfold stripOuterL
  rw [hnorm]
  have hlen : ¬((q :: (J.data ++ [q])).length < 2) := by
    simp only [List.length_cons, List.length_append, List.length_singleton]
    omega
  rw [if_neg hlen]
  simp only [List.head?_cons, getLast?_cons_concat]
  rw [if_pos]
  · have hdrop : (q :: (J.data ++ [q])).drop 1 = J.data ++ [q] := rfl
    rw [hdrop]
    rw [List.dropLast_concat]
  · rcases hq with h | h <;> subst h
    · simp
    · simp

/-- Claim core: wrapping a valid JSON document text in matching single
quotes or backticks does not change the normalizer's result. -/
theorem smartParse_wrap_eq {J : String} {v : Json} (q : Char) (md : Nat)
    (hq : q = '\'' ∨ q = '`') (hJ : parseJson J = some v) :
    smartParseJsonInput ⟨q :: (J.data ++ [q])⟩ md = smartParseJsonInput J md := by
  unfold smartParseJsonInput
  rw [stripOuter_wrap J q hq, stripOuter_of_parse hJ]

end JsonViz
namespace JsonViz

theorem parseStringBody_escapeBSQ (cs : List Char) (h : ∀ c ∈ cs, 32 ≤ c.toNat) :
    ∀ rest, parseStringBody (escapeBSQ cs ++ '"' :: rest) = some (cs, rest) := by
  induction cs with
  | nil =>
    intro rest
    simp only [escapeBSQ, List.nil_append]
    rw [parseStringBody.eq_def]
    simp
  | cons c cs ih =>
    have hc := h c (by simp)
    have hcs : ∀ c' ∈ cs, 32 ≤ c'.toNat := fun c' hc' => h c' (by simp [hc'])
    intro rest
    by_cases h1 : c = '\\'
    · subst h1
      simp only [escapeBSQ]
      rw [show bsqChar '\\' = ['\\', '\\'] from rfl]
      simp only [List.cons_append, List.nil_append]
      rw [parseStringBody.eq_def]
      simp [ih hcs]
    · by_cases h2 : c = '"'
      · subst h2
        simp only [escapeBSQ]
        rw [show bsqChar '"' = ['\\', '"'] from rfl]
        simp only [List.cons_append, List.nil_append]
        rw [parseStringBody.eq_def]
        simp [ih hcs]
      · simp only [escapeBSQ]
        rw [show bsqChar c = [c] from by unfold bsqChar; rw [if_neg h1, if_neg h2]]
        simp only [List.cons_append, List.nil_append]
        rw [parseStringBody.eq_def]
        have h32 : ¬(c.toNat < 32) := by omega
        simp [h1, h2, h32, ih hcs]

theorem parseJson_wrapBSQ (s : String) (hctrl : ctrlFree s = true) :
    parseJson ⟨'"' :: (escapeBSQ s.data ++ ['"'])⟩ = some (.str s) := by
  have hall : ∀ c ∈ s.data, 32 ≤ c.toNat := by
    simp only [ctrlFree, List.all_eq_true, decide_eq_true_eq] at hctrl
    exact hctrl
  unfold parseJson
  rw [show (⟨'"' :: (escapeBSQ s.data ++ ['"'])⟩ : String).data =
    '"' :: (escapeBSQ s.data ++ ['"']) from rfl]
  rw [parseValue.eq_def]
  simp only [skipWs_cons_of_not_ws (show jsonWsChar '"' = false by decide)]
  simp only [show (['"'] : List Char) = '"' :: [] from rfl,
    parseStringBody_escapeBSQ s.data hall]
  simp [stringMk_data]

theorem parseJson_quoteLed {l : List Char} {v : Json}
    (h : parseJson ⟨'"' :: l⟩ = some v) : ∃ t, v = .str t := by
  unfold parseJson at h
  rw [show (⟨'"' :: l⟩ : String).data = '"' :: l from rfl] at h
  rw [parseValue.eq_def] at h
  simp only [skipWs_cons_of_not_ws (show jsonWsChar '"' = false by decide)] at h
  rcases hp : parseStringBody l with _ | p
  · simp [hp] at h
  · simp only [hp] at h
    simp at h
    exact ⟨⟨p.1⟩, h.2.symm⟩

end JsonViz
namespace JsonViz

/-- Rungs 1–3 of `executeUnescape` always produce a string for non-empty
control-character-free input. -/
theorem executeUnescape_total (s : String) (hne : s ≠ "") (hctrl : ctrlFree s = true) :
    ∃ t, executeUnescape (some s) = .ok (some t) := by
  have hr3 := parseJson_wrapBSQ s hctrl
  unfold executeUnescape
  simp only []
  rw [if_neg hne]
  rcases h1 : parseJson s with _ | v1
  · rcases h2 : parseJson ⟨'"' :: (s.data ++ ['"'])⟩ with _ | v2
    · exact ⟨s, by simp [h2, hr3]⟩
    · obtain ⟨t2, ht2⟩ := parseJson_quoteLed h2
      subst ht2
      exact ⟨t2, by simp [h2]⟩
  · rcases v1 with _ | b | n | t1 | xs | kvs
    case str => exact ⟨t1, by simp⟩
    all_goals
      rcases h2 : parseJson ⟨'"' :: (s.data ++ ['"'])⟩ with _ | v2
    all_goals
      try (obtain ⟨t2, ht2⟩ := parseJson_quoteLed h2; subst ht2; exact ⟨t2, by simp [h2]⟩)
    all_goals
      exact ⟨s, by simp [h2, hr3]⟩

end JsonViz
namespace JsonViz

/-- The classifier on the serialization of a non-string document:
`{form := json, escapeDepth := 0}`. -/
theorem analyze_encode (d : Json) (md : Nat) (hd : d.isStr = false) (hmd : 0 < md) :
    analyzeJsonInput (encodeJson d) md = ⟨.json, 0⟩ := by
  unfold analyzeJsonInput
  have ht : jsTrim (encodeJson d) = encodeJson d := jsTrim_eTower d 0
  rw [ht]
  simp only []
  rw [show encodeJson d = eTower d 0 from rfl]
  rw [if_neg (eTower_ne_empty d 0), smartParse_eTower d hd 0 md hmd]
  rfl

end JsonViz

/-! ## The claims -/

namespace JsonViz

/-- C1: escape round-trip of the normalizer.  As stated over every valid
JSON document the claim is false (see the counterexample: the string
document `"null"` is re-parsed one level too far).  Amended form, proved
here: for every NON-STRING document `d` and every `N` below the depth
budget, `smartParseJsonInput` applied to `d` serialized once and then
string-serialized `N` more times succeeds with value `d` and
`escapeDepth = N`. -/
theorem claim_C1 (d : Json) (N maxDepth : Nat) (hd : d.isStr = false)
    (hN : N < maxDepth) :
    smartParseJsonInput (eTower d N) maxDepth = .ok ⟨d, N⟩ :=
  smartParse_eTower d hd N maxDepth hN

theorem claim_C1_witness :
    (Json.obj (.cons "a" (.num 1) .nil)).isStr = false ∧ 2 < 25 ∧
    smartParseJsonInput (eTower (Json.obj (.cons "a" (.num 1) .nil)) 2) 25 =
      .ok ⟨Json.obj (.cons "a" (.num 1) .nil), 2⟩ :=
  ⟨by decide, by decide, claim_C1 (Json.obj (.cons "a" (.num 1) .nil)) 2 25 (by decide) (by decide)⟩

/-- C1 fails for the string document `D = Json.str "null"`: `E_0` is the
five-character text `"null"`, which the loop unwraps once more because its
content re-parses, returning `(Json.null, 1)` instead of `(D, 0)`. -/
theorem claim_C1_counterexample :
    smartParseJsonInput (eTower (Json.str "null") 0) 25 = .ok ⟨Json.null, 1⟩ ∧
    ¬(smartParseJsonInput (eTower (Json.str "null") 0) 25 =
        .ok ⟨Json.str "null", 0⟩) :=
  ⟨by decide, by decide⟩

/-- C2: termination of the normalizer.  The iteration bound is true and is
proved here: the loop runs at most `maxDepth` iterations.  The claim's
mechanism for the self-decoding input is false (see the counterexample):
such an input halts after ONE iteration through the no-progress break of
the decode step (`next != current` fails), not through the seen-set cycle
guard, though indeed without incrementing `escapeDepth`.  The second
conjunct proves this amended behaviour: on any input whose direct parse
fails, whose quote stripping is the identity, and whose string-literal
decode normalizes back to the same string, the loop stops after exactly
one iteration with `escapeDepth = 0` in the thrown error. -/
theorem claim_C2 (raw : String) (maxDepth : Nat) :
    (smartParseTraced raw maxDepth).iters ≤ maxDepth ∧
    (∀ t : String, 1 ≤ maxDepth →
      parseJson (stripOuterNonJsonQuotes raw) = none →
      stripOuterNonJsonQuotes (stripOuterNonJsonQuotes raw) =
        stripOuterNonJsonQuotes raw →
      tryDecodeAsJsonStringLiteral (stripOuterNonJsonQuotes raw) =
        some (.str t) →
      normalizeJs t = stripOuterNonJsonQuotes raw →
      (smartParseTraced raw maxDepth).reason = .noProgress ∧
      (smartParseTraced raw maxDepth).iters = 1 ∧
      smartParseJsonInput raw maxDepth =
        .error ⟨some (stripOuterNonJsonQuotes raw), maxDepth, 0⟩) := by
  refine ⟨smartParseTraced_iters_le raw maxDepth, ?_⟩
  intro t h1 h2 h3 h4 h5
  have h := smartParseTraced_noProgress raw maxDepth t h1 h2 h3 h4 h5
  refine ⟨by rw [h], by rw [h], ?_⟩
  rw [← smartParseTraced_result, h]

theorem claim_C2_witness :
    (smartParseTraced "a" 25).iters ≤ 25 ∧
    (smartParseTraced "a" 25).reason = .noProgress ∧
    smartParseJsonInput "a" 25 =
      .error ⟨some (stripOuterNonJsonQuotes "a"), 25, 0⟩ :=
  ⟨(claim_C2 "a" 25).1,
   ((claim_C2 "a" 25).2 "a" (by decide) (by decide) (by decide) (by decide)
      (by decide)).1,
   ((claim_C2 "a" 25).2 "a" (by decide) (by decide) (by decide) (by decide)
      (by decide)).2.2⟩

/-- C2 names the wrong exit for a self-decoding string: `"a"` decodes to
itself under the string-literal-decode step, yet the instrumented loop
records a `noProgress` exit after a single iteration — the seen-set cycle
guard (`cycleDetected`) never fires, because the no-progress break comes
first. -/
theorem claim_C2_counterexample :
    tryDecodeAsJsonStringLiteral "a" = some (.str "a") ∧
    normalizeJs "a" = "a" ∧
    (smartParseTraced "a" 25).reason = ExitReason.noProgress ∧
    ¬((smartParseTraced "a" 25).reason = ExitReason.cycleDetected) ∧
    (smartParseTraced "a" 25).iters = 1 :=
  ⟨by decide, by decide, by decide, by decide, by decide⟩

/-- C3: totality of the classifier.  `analyzeJsonInput` is a total Lean
function, so it returns a well-formed `{form, escapeDepth}` pair on every
input; this theorem proves the three clauses of the claim: a
whitespace-only (or empty) input yields `{unknown, 0}`; when the
normalizer succeeds on the trimmed input, `form` is `escaped` exactly when
`escapeDepth > 0` and `json` otherwise; when the normalizer fails, the
result is `{unknown, 0}`. -/
theorem claim_C3 (raw : String) (maxDepth : Nat) :
    ((∀ c ∈ raw.data, jsWsChar c = true) →
      analyzeJsonInput raw maxDepth = ⟨.unknown, 0⟩) ∧
    (∀ v dep, smartParseJsonInput (jsTrim raw) maxDepth = .ok ⟨v, dep⟩ →
      analyzeJsonInput raw maxDepth =
        ⟨if dep > 0 then .escaped else .json, dep⟩) ∧
    (∀ e, smartParseJsonInput (jsTrim raw) maxDepth = .error e →
      analyzeJsonInput raw maxDepth = ⟨.unknown, 0⟩) := by
  refine ⟨?_, ?_, ?_⟩
  · intro hws
    unfold analyzeJsonInput
    simp only []
    rw [jsTrim_eq_empty_of_ws hws, if_pos rfl]
  · intro v dep h
    by_cases hemp : jsTrim raw = ""
    · rw [hemp] at h
      obtain ⟨e, he⟩ := smartParse_empty maxDepth
      rw [he] at h
      cases h
    · unfold analyzeJsonInput
      simp only []
      rw [if_neg hemp, h]
  · intro e h
    unfold analyzeJsonInput
    simp only []
    by_cases hemp : jsTrim raw = ""
    · rw [hemp, if_pos rfl]
    · rw [if_neg hemp, h]

theorem claim_C3_witness :
    ((∀ c ∈ ("  " : String).data, jsWsChar c = true) ∧
      analyzeJsonInput "  " 25 = ⟨.unknown, 0⟩) ∧
    (smartParseJsonInput (jsTrim "[1,2]") 25 = .ok ⟨.arr (.cons (.num 1) (.cons (.num 2) .nil)), 0⟩ ∧
      analyzeJsonInput "[1,2]" 25 = ⟨.json, 0⟩) ∧
    (smartParseJsonInput (jsTrim "a") 25 = .error ⟨some "a", 25, 0⟩ ∧
      analyzeJsonInput "a" 25 = ⟨.unknown, 0⟩) :=
  ⟨⟨by decide, (claim_C3 "  " 25).1 (by decide)⟩,
   ⟨by decide,
    (claim_C3 "[1,2]" 25).2.1 (.arr (.cons (.num 1) (.cons (.num 2) .nil)) ) 0 (by decide)⟩,
   ⟨by decide, (claim_C3 "a" 25).2.2 ⟨some "a", 25, 0⟩ (by decide)⟩⟩

/-- C4: depth-probe agreement.  As stated over all inputs where both
operations succeed the claim is false (see the counterexample).  Amended
form, proved here: the two agree on serialization towers — for every
non-string document `d` and `N < 20` (the probe's iteration budget), both
`getEscapeDepth` and the normalizer report depth `N` on `d` serialized
once and string-serialized `N` more times. -/
theorem claim_C4 (d : Json) (N : Nat) (hd : d.isStr = false) (hN : N < 20) :
    smartParseJsonInput (eTower d N) 25 = .ok ⟨d, N⟩ ∧
    getEscapeDepth (eTower d N) = N :=
  ⟨smartParse_eTower d hd N 25 (by omega), getEscapeDepth_eTower d hd N hN⟩

theorem claim_C4_witness :
    (Json.obj (.cons "a" (.num 1) .nil)).isStr = false ∧ 2 < 20 ∧
    (smartParseJsonInput (eTower (Json.obj (.cons "a" (.num 1) .nil)) 2) 25 =
        .ok ⟨Json.obj (.cons "a" (.num 1) .nil), 2⟩ ∧
      getEscapeDepth (eTower (Json.obj (.cons "a" (.num 1) .nil)) 2) = 2) :=
  ⟨by decide, by decide,
   claim_C4 (Json.obj (.cons "a" (.num 1) .nil)) 2 (by decide) (by decide)⟩

/-- C4 fails on the nine-character text `{\"a\":1}` wrapped in double
quotes: the standalone probe (which lacks the normalizer's
quote-stripping and treats the quoted string as depth 0) reports 0, while
the normalizer succeeds with `escapeDepth = 2`. -/
theorem claim_C4_counterexample :
    getEscapeDepth (encodeString "\x7b\\\"a\\\":1\x7d") = 0 ∧
    smartParseJsonInput (encodeString "\x7b\\\"a\\\":1\x7d") 25 =
      .ok ⟨.obj (.cons "a" (.num 1) .nil), 2⟩ ∧
    (0 : Nat) ≠ 2 :=
  ⟨by decide, by decide, by decide⟩

/-- C5: totality of the single-level unescaper.  As stated for every
non-empty string the claim is false (see the counterexample: a literal
control character defeats rung 3, whose escaping handles only backslashes
and double quotes).  Amended form, proved here: for every non-empty string
with no control character (U+0000–U+001F), `executeUnescape` returns a
string and never raises. -/
theorem claim_C5 (s : String) (hne : s ≠ "") (hctrl : ctrlFree s = true) :
    ∃ t, executeUnescape (some s) = .ok (some t) :=
  executeUnescape_total s hne hctrl

theorem claim_C5_witness :
    ("Hello \"World\"" ≠ "") ∧ ctrlFree "Hello \"World\"" = true ∧
    (∃ t, executeUnescape (some "Hello \"World\"") = .ok (some t)) ∧
    executeUnescape (some "Hello \"World\"") = .ok (some "Hello \"World\"") :=
  ⟨by decide, by decide, claim_C5 "Hello \"World\"" (by decide) (by decide),
   by decide⟩

/-- C5 fails on the non-empty input `"a\nb"` (a literal line feed): all
three rungs fail — rung 3 leaves the control character unescaped inside
the quotes, which is not valid JSON — so `executeUnescape` raises,
propagating the `SyntaxError` of the rung-3 text. -/
theorem claim_C5_counterexample :
    ("a\nb" ≠ "") ∧ executeUnescape (some "a\nb") = .error "\"a\nb\"" :=
  ⟨by decide, by decide⟩

/-- C6: idempotence of classification on clean JSON.  As stated over every
valid JSON document the claim is false (see the counterexample: a string
document whose content re-parses classifies as `escaped`).  Amended form,
proved here: for every NON-STRING document `d` and positive depth budget,
`analyzeJsonInput (encodeJson d) = {form := json, escapeDepth := 0}`. -/
theorem claim_C6 (d : Json) (maxDepth : Nat) (hd : d.isStr = false)
    (hmd : 0 < maxDepth) :
    analyzeJsonInput (encodeJson d) maxDepth = ⟨.json, 0⟩ :=
  analyze_encode d maxDepth hd hmd

theorem claim_C6_witness :
    (Json.obj (.cons "a" (.num 1) .nil)).isStr = false ∧ (0 : Nat) < 25 ∧
    analyzeJsonInput (encodeJson (Json.obj (.cons "a" (.num 1) .nil))) 25 =
      ⟨.json, 0⟩ :=
  ⟨by decide, by decide,
   claim_C6 (Json.obj (.cons "a" (.num 1) .nil)) 25 (by decide) (by decide)⟩

/-- C6 fails for the string document `D = Json.str "null"`: its
serialization is the text `"null"`, which the normalizer unwraps once
(content re-parses), so the classifier reports `{escaped, 1}`, not
`{json, 0}`. -/
theorem claim_C6_counterexample :
    analyzeJsonInput (encodeJson (Json.str "null")) 25 = ⟨.escaped, 1⟩ ∧
    ¬(analyzeJsonInput (encodeJson (Json.str "null")) 25 = ⟨.json, 0⟩) :=
  ⟨by decide, by decide⟩

/-- C7: quote stripping does not count toward escape depth.  For every
text `J` that parses as JSON and every wrapping character `q` that is a
single quote or a backtick, the normalizer applied to `q ++ J ++ q`
returns exactly the same result (same value AND same `escapeDepth`) as on
`J` alone: the stripping step restarts the loop without incrementing
`depth`. -/
theorem claim_C7 (J : String) (q : Char) (maxDepth : Nat) (v : Json)
    (hq : q = '\'' ∨ q = '`') (hJ : parseJson J = some v) :
    smartParseJsonInput ⟨q :: (J.data ++ [q])⟩ maxDepth =
      smartParseJsonInput J maxDepth :=
  smartParse_wrap_eq q maxDepth hq hJ

theorem claim_C7_witness :
    parseJson "\x7b\"a\":1\x7d" = some (.obj (.cons "a" (.num 1) .nil)) ∧
    smartParseJsonInput "'\x7b\"a\":1\x7d'" 25 = smartParseJsonInput "\x7b\"a\":1\x7d" 25 := by
  refine ⟨by decide, ?_⟩
  have h := claim_C7 "\x7b\"a\":1\x7d" '\'' 25 (.obj (.cons "a" (.num 1) .nil))
    (Or.inl rfl) (by decide)
  have hs : (⟨'\'' :: ("\x7b\"a\":1\x7d".data ++ ['\''])⟩ : String) = "'\x7b\"a\":1\x7d'" := by
    decide
  rw [← hs]
  exact h

/-- C8: failure metadata of the normalizer.  Whenever `smartParseJsonInput`
fails, the thrown error carries `maxDepthTried` equal to the `maxDepth`
argument, `escapeDepth` equal to the depth the loop had reached when it
exited (the instrumented trace's final depth), and as cause the last
underlying parse error recorded by the loop (the trace's final
`lastError`). -/
theorem claim_C8 (raw : String) (maxDepth : Nat) (e : SmartParseErr)
    (h : smartParseJsonInput raw maxDepth = .error e) :
    e.maxDepthTried = maxDepth ∧
    e.escapeDepth = (smartParseTraced raw maxDepth).finalDepth ∧
    e.cause = (smartParseTraced raw maxDepth).finalLastError := by
  have hres : (smartParseTraced raw maxDepth).result = .error e := by
    rw [smartParseTraced_result]
    exact h
  exact (smartLoopTraced_spec maxDepth (stripOuterNonJsonQuotes raw) 0 []
    none maxDepth).2.2 e hres

theorem claim_C8_witness :
    smartParseJsonInput "a" 25 = .error ⟨some "a", 25, 0⟩ ∧
    ((⟨some "a", 25, 0⟩ : SmartParseErr).maxDepthTried = 25 ∧
      (⟨some "a", 25, 0⟩ : SmartParseErr).escapeDepth =
        (smartParseTraced "a" 25).finalDepth ∧
      (⟨some "a", 25, 0⟩ : SmartParseErr).cause =
        (smartParseTraced "a" 25).finalLastError) :=
  ⟨by decide, claim_C8 "a" 25 ⟨some "a", 25, 0⟩ (by decide)⟩

/-- C9: the nine-character unquoted escaped fragment `{\"a\":1}` is
normalized successfully: the value is the object `{a: 1}` and the
reported `escapeDepth` is at least 1. -/
theorem claim_C9 :
    ∃ r : SmartOk, smartParseJsonInput "\x7b\\\"a\\\":1\x7d" 25 = .ok r ∧
      r.value = .obj (.cons "a" (.num 1) .nil) ∧ 1 ≤ r.escapeDepth :=
  ⟨⟨.obj (.cons "a" (.num 1) .nil), 1⟩, by decide, rfl, by decide⟩

/-- C10: falsy input to the single-level unescaper is returned unchanged
without any parse attempt and without raising: `null`/`undefined`
(modeled as `none`) maps to itself and the empty string maps to the empty
string. -/
theorem claim_C10 :
    executeUnescape none = .ok none ∧
    executeUnescape (some "") = .ok (some "") :=
  ⟨rfl, by decide⟩

end JsonViz
